import Mathlib

/-!
# Verification of the rpg-encoder core against its specification

Shallow embedding of the Rust sources of `rpg-encoder`:

* `crates/rpg-core/src/schema.rs`   — version validation, migration, (de)serialization
* `crates/rpg-core/src/config.rs`   — configuration loading and env overrides
* `crates/rpg-encoder/src/semantic_lifting.rs` — LLM-output parsing and feature plumbing
* `crates/rpg-encoder/src/hierarchy.rs` — hierarchy assignment application

Rust `String` is modelled by Lean `String`; `HashMap`/`IndexMap` by association
lists (`List (String × _)`); machine integers by `Nat` with explicit bounds where
overflow matters; fallible code by `Except`/`Option`.  The `semver` crate is
modelled from its documented grammar and ordering.  The graph data model
(`crates/rpg-core/src/graph.rs`) is not among the provided sources; its shape is
reconstructed from the spec (§3) and from the uses in `schema.rs` tests.
-/

/-! ## Character and string helpers (models of Rust `str` operations) -/

/-- ASCII digit test (`char::is_ascii_digit`). -/
def isDigitC (c : Char) : Bool :=
  decide (48 ≤ c.toNat) && decide (c.toNat ≤ 57)

/-- Alphanumeric-or-hyphen test, the character set of semver identifiers. -/
def isIdentC (c : Char) : Bool :=
  isDigitC c || (decide (65 ≤ c.toNat) && decide (c.toNat ≤ 90))
    || (decide (97 ≤ c.toNat) && decide (c.toNat ≤ 122)) || decide (c.toNat = 45)

/-- ASCII whitespace, the subset of Unicode `White_Space` relevant to the
inputs at hand (space, tab, newline, vertical tab, form feed, carriage return).
Models the character class trimmed by Rust `str::trim` (which trims full
Unicode `White_Space`; the sources only ever deal in ASCII here). -/
def isWsC (c : Char) : Bool :=
  decide (c.toNat = 32) || decide (c.toNat = 9) || decide (c.toNat = 10)
    || decide (c.toNat = 11) || decide (c.toNat = 12) || decide (c.toNat = 13)

/-- Model of Rust `str::trim`: drop leading and trailing whitespace. -/
def trimChars (cs : List Char) : List Char :=
  ((cs.dropWhile isWsC).reverse.dropWhile isWsC).reverse

/-- Model of Rust `str::trim` on `String`. -/
def trimS (s : String) : String := ⟨trimChars s.data⟩

/-- Model of Rust `char::to_lowercase` restricted to its ASCII action
(the sources only lowercase ASCII feature text). -/
def toLowerC (c : Char) : Char :=
  if 65 ≤ c.toNat ∧ c.toNat ≤ 90 then Char.ofNat (c.toNat + 32) else c

/-- Model of Rust `str::to_lowercase` (ASCII action). -/
def toLowerS (s : String) : String := ⟨s.data.map toLowerC⟩

/-- Split a character list at every occurrence of `c` (Rust `str::split(c)`):
always returns at least one (possibly empty) piece. -/
def splitListOn (c : Char) : List Char → List (List Char)
  | [] => [[]]
  | x :: xs =>
    let r := splitListOn c xs
    if x = c then [] :: r
    else
      match r with
      | [] => [[x]]
      | p :: ps => (x :: p) :: ps

/-- Model of Rust `str::split(c)` on `String`. -/
def splitS (c : Char) (s : String) : List String :=
  (splitListOn c s.data).map (fun cs => ⟨cs⟩)

/-- Break a character list at the first occurrence of `c`; the second
component is `none` when `c` does not occur.  Models Rust
`str::splitn(2, c)` / `str::find(c)`. -/
def breakAtFirst (c : Char) : List Char → List Char × Option (List Char)
  | [] => ([], none)
  | x :: xs =>
    if x = c then ([], some xs)
    else
      let r := breakAtFirst c xs
      (x :: r.1, r.2)

/-- Drop a single trailing carriage return (the `\r` of a `\r\n` line ending). -/
def stripCR (cs : List Char) : List Char :=
  match cs.reverse with
  | '\r' :: rest => rest.reverse
  | _ => cs

/-- Model of Rust `str::lines`: split at `\n`, recognize ` \r\n`, final line
ending optional (a trailing empty piece produced by a final newline is
dropped; a final piece without a newline keeps any `\r`). -/
def rustLines (s : String) : List String :=
  let rec go : List (List Char) → List (List Char)
    | [] => []
    | [last] => if last.isEmpty then [] else [last]
    | p :: rest => stripCR p :: go rest
  (go (splitListOn '\n' s.data)).map (fun cs => ⟨cs⟩)

/-- Insert `x` into a sorted list, before the first element that `x` is
`le`-below (so that, over a total order, sorting is stable). -/
def insertSorted {α : Type} (le : α → α → Bool) (x : α) : List α → List α
  | [] => [x]
  | y :: ys => if le x y then x :: y :: ys else y :: insertSorted le x ys

/-- Stable sort by a boolean `≤` (insertion sort).  Rust `Vec::sort` is a
stable sort by `Ord`; over a total order the stable sorted permutation is
unique, so this computes the same list. -/
def stableSort {α : Type} (le : α → α → Bool) : List α → List α
  | [] => []
  | x :: xs => insertSorted le x (stableSort le xs)

/-- Three-way comparison of naturals. -/
def cmpNat (a b : Nat) : Ordering :=
  if a < b then .lt else if a = b then .eq else .gt

/-- Lexicographic comparison of character lists by code point (agrees with
Rust byte order on the ASCII data at hand). -/
def cmpCharList : List Char → List Char → Ordering
  | [], [] => .eq
  | [], _ :: _ => .lt
  | _ :: _, [] => .gt
  | a :: xs, b :: ys => (cmpNat a.toNat b.toNat).then (cmpCharList xs ys)

/-- Lexicographic string comparison (Rust `String` `Ord`). -/
def cmpStr (a b : String) : Ordering := cmpCharList a.data b.data

/-- Boolean string `≤` derived from the three-way comparison. -/
def strLe (a b : String) : Bool := cmpStr a b != .gt

/-- Sort a list of strings, as Rust `Vec::<String>::sort` (lexicographic). -/
def sortStrings (l : List String) : List String :=
  stableSort strLe l

/-- Remove consecutive duplicates, as Rust `Vec::dedup`. -/
def dedupConsec : List String → List String
  | [] => []
  | [a] => [a]
  | a :: b :: rest =>
    if a = b then dedupConsec (b :: rest) else a :: dedupConsec (b :: rest)

/-! ## Association-list model of `HashMap` / `IndexMap`

Rust hash maps are modelled by association lists whose key lists are duplicate
free (guaranteed by the map abstraction).  `findAssoc` is `get`, `setAssoc` is
`insert` (replace in place, else append — insertion order is one fixed
iteration order of the Rust map). -/

/-- Map lookup (`HashMap::get`). -/
def findAssoc {α : Type} (m : List (String × α)) (k : String) : Option α :=
  (m.find? (fun p => p.1 == k)).map (·.2)

/-- Map insert (`HashMap::insert`): replace the value at an existing key in
place, otherwise append the new binding. -/
def setAssoc {α : Type} (m : List (String × α)) (k : String) (v : α) :
    List (String × α) :=
  match m with
  | [] => [(k, v)]
  | (k', v') :: rest =>
    if k' == k then (k, v) :: rest else (k', v') :: setAssoc rest k v

/-- Update the value at a key when present (`HashMap::get_mut`), otherwise
leave the map unchanged. -/
def updAssoc {α : Type} (m : List (String × α)) (k : String) (f : α → α) :
    List (String × α) :=
  match m with
  | [] => []
  | (k', v') :: rest =>
    if k' == k then (k', f v') :: rest else (k', v') :: updAssoc rest k f

/-! ## Model of the `semver` crate (external dependency of `schema.rs`)

Grammar and ordering follow the semver 2.0 spec as implemented by the `semver`
crate: `MAJOR.MINOR.PATCH[-PRE][+BUILD]`, numeric components are `u64` without
leading zeros, pre-release and build are dot-separated `[0-9A-Za-z-]`
identifiers (pre-release numeric identifiers have no leading zeros).  The
crate orders versions by major, minor, patch, pre-release (an empty
pre-release is greater than any non-empty one; numeric identifiers sort below
and among themselves numerically), with build metadata as a final lexical
tiebreak. -/

structure SemVer where
  major : Nat
  minor : Nat
  patch : Nat
  pre : List String
  build : List String
deriving DecidableEq, Repr

/-- Numeric value of a digit list. -/
def digitsVal (cs : List Char) : Nat :=
  cs.foldl (fun a c => a * 10 + (c.toNat - 48)) 0

/-- A valid `MAJOR`/`MINOR`/`PATCH` component: non-empty digits, no leading
zero, and within `u64` range (the crate stores components as `u64`). -/
def validNumCore (cs : List Char) : Bool :=
  !cs.isEmpty && cs.all isDigitC
    && (cs.length == 1 || cs.head? != some '0')
    && decide (digitsVal cs < 2 ^ 64)

/-- A valid pre-release identifier. -/
def validPreId (cs : List Char) : Bool :=
  !cs.isEmpty && cs.all isIdentC
    && (!cs.all isDigitC || cs.length == 1 || cs.head? != some '0')

/-- A valid build-metadata identifier (leading zeros permitted). -/
def validBuildId (cs : List Char) : Bool :=
  !cs.isEmpty && cs.all isIdentC

/-- Model of `semver::Version::parse`. -/
def parseSemVer (s : String) : Option SemVer :=
  let pb := breakAtFirst '+' s.data
  let pc := breakAtFirst '-' pb.1
  match splitListOn '.' pc.1 with
  | [ma, mi, pa] =>
    if validNumCore ma && validNumCore mi && validNumCore pa then
      let preIds : Option (List String) :=
        match pc.2 with
        | none => some []
        | some p =>
          let ps := splitListOn '.' p
          if ps.all validPreId then some (ps.map (fun cs => ⟨cs⟩)) else none
      let buildIds : Option (List String) :=
        match pb.2 with
        | none => some []
        | some b =>
          let bs := splitListOn '.' b
          if bs.all validBuildId then some (bs.map (fun cs => ⟨cs⟩)) else none
      match preIds, buildIds with
      | some pr, some bu =>
        some ⟨digitsVal ma, digitsVal mi, digitsVal pa, pr, bu⟩
      | _, _ => none
    else none
  | _ => none

/-- Comparison of single semver identifiers: numeric identifiers sort below
alphanumeric ones and compare numerically among themselves (length, then
digits — equivalent to value for identifiers without leading zeros). -/
def cmpIdent (a b : String) : Ordering :=
  match a.data.all isDigitC, b.data.all isDigitC with
  | true, true => (cmpNat a.data.length b.data.length).then (cmpCharList a.data b.data)
  | true, false => .lt
  | false, true => .gt
  | false, false => cmpCharList a.data b.data

/-- Zip-longest comparison of identifier lists (running out first is lower). -/
def cmpIdentList : List String → List String → Ordering
  | [], [] => .eq
  | [], _ :: _ => .lt
  | _ :: _, [] => .gt
  | a :: xs, b :: ys => (cmpIdent a b).then (cmpIdentList xs ys)

/-- Pre-release comparison: an empty pre-release is greater than any
non-empty one (a release outranks its own pre-releases). -/
def cmpPre (a b : List String) : Ordering :=
  match a, b with
  | [], [] => .eq
  | [], _ :: _ => .gt
  | _ :: _, [] => .lt
  | _, _ => cmpIdentList a b

/-- Model of the `semver` crate ordering on versions. -/
def compareSemVer (x y : SemVer) : Ordering :=
  (cmpNat x.major y.major).then <|
    (cmpNat x.minor y.minor).then <|
      (cmpNat x.patch y.patch).then <|
        (cmpPre x.pre y.pre).then (cmpIdentList x.build y.build)

/-- Strict order used by `found < current` in `schema.rs`. -/
def semverLt (x y : SemVer) : Bool := compareSemVer x y == .lt

/-! ## Graph data model

Modelled from the spec: `crates/rpg-core/src/graph.rs` is not among the
provided sources; the shapes below follow spec §3 (Entity, DependencyEdge,
HierarchyNode, file index, graph) and the construction sites in the
`schema.rs` tests. -/

/-- Entity kinds (spec §3). -/
inductive EntityKind where
  | Function | Class | Method | Module | Page | Layout | Component | Hook
  | Store | Controller | Model | Service | Middleware | Route | Test
deriving DecidableEq, Repr

/-- Raw dependency payload of an entity (spec §3). -/
structure EntityDeps where
  invokes : List String := []
  inherits : List String := []
  imports : List String := []
deriving DecidableEq, Repr

/-- A code entity (spec §3; field list as constructed in `schema.rs` tests).
File paths are modelled as strings. -/
structure Entity where
  id : String
  kind : EntityKind
  name : String
  file : String
  line_start : Nat
  line_end : Nat
  parent_class : Option String
  semantic_features : List String
  feature_source : Option String
  hierarchy_path : String
  deps : EntityDeps
  signature : Option String
deriving DecidableEq, Repr

/-- Edge kinds (spec §3, in declaration order). -/
inductive EdgeKind where
  | Invokes | Inherits | Imports | Contains
deriving DecidableEq, Repr

/-- A dependency edge (spec §3). -/
structure DependencyEdge where
  source : String
  target : String
  kind : EdgeKind
deriving DecidableEq, Repr

/-- A hierarchy node (spec §3): children keyed by node name. -/
inductive HierarchyNode where
  | mk (id : String) (name : String) (entities : List String)
       (children : List (String × HierarchyNode))
       (aggregated_features : List String)

/-- Node id. -/
def HierarchyNode.id : HierarchyNode → String
  | .mk i _ _ _ _ => i

/-- Node name. -/
def HierarchyNode.name : HierarchyNode → String
  | .mk _ n _ _ _ => n

/-- Entity ids attached to the node. -/
def HierarchyNode.entities : HierarchyNode → List String
  | .mk _ _ es _ _ => es

/-- Child nodes, keyed by name. -/
def HierarchyNode.children : HierarchyNode → List (String × HierarchyNode)
  | .mk _ _ _ cs _ => cs

/-- Aggregated features of the node. -/
def HierarchyNode.aggregated_features : HierarchyNode → List String
  | .mk _ _ _ _ fs => fs

/-- Graph metadata counts (spec §3; field list from the `schema.rs` tests). -/
structure Metadata where
  language : String
  total_files : Nat
  total_entities : Nat
  functional_areas : Nat
  total_edges : Nat
  dependency_edges : Nat
  containment_edges : Nat
deriving DecidableEq, Repr

/-- The repository property graph (spec §3). -/
structure RPGraph where
  version : String
  created_at : String
  updated_at : String
  metadata : Metadata
  entities : List (String × Entity)
  edges : List DependencyEdge
  hierarchy : List (String × HierarchyNode)
  file_index : List (String × List String)

/-! ## `schema.rs`: version validation, migration, serialization -/

/-- `CURRENT_VERSION` constant of `schema.rs`. -/
def CURRENT_VERSION : String := "2.2.0"

/-- `validate_version` of `schema.rs`: parse both versions, accept iff the
major components agree. -/
def validate_version (g : RPGraph) : Except String Unit :=
  match parseSemVer CURRENT_VERSION with
  | none => .error "invalid CURRENT_VERSION constant"
  | some current =>
    match parseSemVer g.version with
    | none => .error ("invalid RPG version string: " ++ g.version)
    | some found =>
      if found.major ≠ current.major then
        .error ("RPG major version mismatch: schema requires "
          ++ toString current.major ++ ".x.x, found " ++ g.version)
      else .ok ()

/-- The inner `norm` of `migrate_normalize_entity_ids`:
`id.replace(backslash, slash)`, a character-wise substitution.  (Named
`normId` here because `norm` collides with the ambient library.) -/
def normId (id : String) : String :=
  ⟨id.data.map (fun c => if c = '\\' then '/' else c)⟩

/-- Apply the id remap table to one id: `remap.get(id)` with fallback to the
id itself (the `if let Some(new_id) = remap.get(..)` pattern of the source). -/
def remapApply (remap : List (String × String)) (id : String) : String :=
  (findAssoc remap id).getD id

mutual
/-- Rewrite every entity id in a hierarchy node by `f`, recursing into the
children.  `fix_hierarchy` of `migrate_normalize_entity_ids` is this traversal
at `f := remapApply remap`. -/
def mapNodeIds (f : String → String) : HierarchyNode → HierarchyNode
  | .mk i n es cs fs => .mk i n (es.map f) (mapChildrenIds f cs) fs

/-- Children traversal of `mapNodeIds`. -/
def mapChildrenIds (f : String → String) :
    List (String × HierarchyNode) → List (String × HierarchyNode)
  | [] => []
  | (k, c) :: rest => (k, mapNodeIds f c) :: mapChildrenIds f rest
end

/-- Step 1 of `migrate_normalize_entity_ids`: move one `(old_key, entity)`
pair into the rebuilt map under the normalized key, recording the remapping
when the key changed. -/
def rebuildStep (acc : List (String × Entity) × List (String × String))
    (p : String × Entity) : List (String × Entity) × List (String × String) :=
  let new_key := normId p.1
  let entity := { p.2 with id := new_key }
  let remap := if p.1 ≠ new_key then setAssoc acc.2 p.1 new_key else acc.2
  (setAssoc acc.1 new_key entity, remap)

/-- `migrate_normalize_entity_ids` of `schema.rs`: rebuild the entities map
with normalized keys and id fields; if anything was remapped, rewrite the
remapped ids in file-index value lists, edge endpoints, and hierarchy entity
lists (recursively). -/
def migrate_normalize_entity_ids (g : RPGraph) : RPGraph :=
  let r := g.entities.foldl rebuildStep ([], [])
  let id_remap := r.2
  if id_remap.isEmpty then { g with entities := r.1 }
  else
    { g with
      entities := r.1
      file_index := g.file_index.map
        (fun p => (p.1, p.2.map (remapApply id_remap)))
      edges := g.edges.map (fun e =>
        { e with source := remapApply id_remap e.source
                 target := remapApply id_remap e.target })
      hierarchy := g.hierarchy.map
        (fun p => (p.1, mapNodeIds (remapApply id_remap) p.2)) }

/-- `migrate` of `schema.rs`: parse both versions; when the found version is
strictly below current, run the 2.2.0 id-normalization migration (gated on
`found < 2.2.0`) and stamp the graph with `CURRENT_VERSION`. -/
def migrate (g : RPGraph) : Except String RPGraph :=
  match parseSemVer CURRENT_VERSION with
  | none => .error "parse error: CURRENT_VERSION"
  | some current =>
    match parseSemVer g.version with
    | none => .error ("parse error: " ++ g.version)
    | some found =>
      if semverLt found current then
        let g' := if semverLt found ⟨2, 2, 0, [], []⟩ then
            migrate_normalize_entity_ids g
          else g
        .ok { g' with version := CURRENT_VERSION }
      else .ok g

/-- Index of an edge kind in its Rust declaration order (the derived `Ord`). -/
def edgeKindIdx : EdgeKind → Nat
  | .Invokes => 0
  | .Inherits => 1
  | .Imports => 2
  | .Contains => 3

/-- The derived `Ord` for `DependencyEdge`: lexicographic by
`(source, target, kind)`, as a boolean `≤`. -/
def edgeLe (a b : DependencyEdge) : Bool :=
  ((cmpStr a.source b.source).then
    ((cmpStr a.target b.target).then
      (cmpNat (edgeKindIdx a.kind) (edgeKindIdx b.kind)))) != .gt

/-- The `graph.edges.sort()` call of `to_json` (stable sort by the derived
`Ord`). -/
def sortEdges (es : List DependencyEdge) : List DependencyEdge :=
  stableSort edgeLe es

/-- Modelled from the spec: the serde JSON text produced for a graph.
`serde_json` is an external library whose encode/decode pair is faithful on
graph values, so the JSON document is represented by the graph value it
encodes (spec §4.6 describes `to_json`/`from_json` as clone + sort edges +
pretty-print, and parse → validate → migrate). -/
structure JsonDoc where
  doc : RPGraph

/-- `to_json` of `schema.rs`: clone the graph, sort the edges, serialize. -/
def to_json (g : RPGraph) : JsonDoc :=
  ⟨{ g with edges := sortEdges g.edges }⟩

/-- `from_json` of `schema.rs`: deserialize, validate the version, migrate. -/
def from_json (j : JsonDoc) : Except String RPGraph :=
  match validate_version j.doc with
  | .error e => .error e
  | .ok _ => migrate j.doc


/-! ## `semantic_lifting.rs`: LLM-output parsing and feature normalization -/

/-- `str::starts_with` on a string pattern. -/
def startsWithS (p s : String) : Bool := p.data.isPrefixOf s.data

/-- Byte-index of the first occurrence of `pat` in `s` (Rust `str::find`). -/
def findSub (pat : List Char) : List Char → Option Nat
  | [] => if pat.isPrefixOf ([] : List Char) then some 0 else none
  | c :: cs =>
    if pat.isPrefixOf (c :: cs) then some 0
    else (findSub pat cs).map (· + 1)

/-- The opening tag searched by `strip_think_blocks`. -/
def thinkOpen : List Char := "<think>".data

/-- The closing tag searched by `strip_think_blocks`. -/
def thinkClose : List Char := "</think>".data

/-- The `while let Some(start) = result.find("<think>")` loop of
`strip_think_blocks`.  Each iteration removes at least the eight characters
of a closing tag or terminates, so the loop runs at most `length` times; the
fuel argument is set to `length + 1` at the entry point and is never
exhausted. -/
def stripThinkAux : Nat → List Char → List Char
  | 0, s => s
  | fuel + 1, s =>
    match findSub thinkOpen s with
    | none => s
    | some start =>
      match findSub thinkClose (s.drop start) with
      | some endOff =>
        stripThinkAux fuel
          (s.take start ++ s.drop (start + endOff + thinkClose.length))
      | none => s.take start

/-- `strip_think_blocks` of `semantic_lifting.rs`: repeatedly delete the
first paired `<think>…</think>` block, truncating at the open tag when the
block is unterminated. -/
def strip_think_blocks (text : String) : String :=
  ⟨stripThinkAux (text.data.length + 1) text.data⟩

/-- One iteration of the line loop in `parse_line_features`: trim, skip
blanks / `#` comments / code fences / pipe-less lines, split at the first
pipe, skip empty names, record the trimmed name with its trimmed lowercased
non-empty features. -/
def lineStep (acc : List (String × List String)) (rawLine : String) :
    List (String × List String) :=
  let line := trimS rawLine
  if line.isEmpty then acc
  else if startsWithS "#" line then acc
  else if startsWithS "```" line then acc
  else if !(line.data.contains '|') then acc
  else
    -- `splitn(2, pipe)` always yields exactly two parts here, since the
    -- line contains a pipe; the source's `parts.len() != 2` guard is vacuous.
    let parts := breakAtFirst '|' line.data
    let name := trimS ⟨parts.1⟩
    if name.isEmpty then acc
    else
      let feats := ((splitListOn ',' (parts.2.getD [])).map
        (fun cs => toLowerS (trimS ⟨cs⟩))).filter (fun f => !f.isEmpty)
      setAssoc acc name feats

/-- `parse_line_features` of `semantic_lifting.rs`. -/
def parse_line_features (text : String) : List (String × List String) :=
  (rustLines (strip_think_blocks text)).foldl lineStep []

/-- The per-list body of `normalize_features`: trim and lowercase each
feature, sort, remove consecutive duplicates, drop empties. -/
def normalizeList (fs : List String) : List String :=
  (dedupConsec (sortStrings (fs.map (fun f => toLowerS (trimS f))))).filter
    (fun f => !f.isEmpty)

/-- `normalize_features` of `semantic_lifting.rs` (applied to every value of
the features map). -/
def normalize_features (m : List (String × List String)) :
    List (String × List String) :=
  m.map (fun p => (p.1, normalizeList p.2))

/-- Does `id` resolve to a Module entity of `g`?
(`graph.entities.get(id).is_some_and(kind == Module)`). -/
def isModuleId (g : RPGraph) (id : String) : Bool :=
  match findAssoc g.entities id with
  | some e => e.kind == EntityKind.Module
  | none => false

/-- The `module_data` collection pass of `aggregate_module_features`: for
each file-index entry, find the first Module id, gather the features of the
other listed entities, and keep the sorted deduplicated result when
non-empty. -/
def moduleData (g : RPGraph) : List (String × List String) :=
  g.file_index.filterMap (fun p =>
    match p.2.find? (isModuleId g) with
    | none => none
    | some module_id =>
      let all := ((p.2.filter (fun id => id != module_id)).filterMap
        (fun id => findAssoc g.entities id)).flatMap
          (fun e => e.semantic_features)
      if all.isEmpty then none
      else some (module_id, dedupConsec (sortStrings all)))

/-- Overwrite the semantic features of the entity stored at `id`, when
present (`entities.get_mut`). -/
def setEntityFeatures (g : RPGraph) (id : String) (fs : List String) : RPGraph :=
  { g with entities :=
      updAssoc g.entities id (fun e => { e with semantic_features := fs }) }

/-- `aggregate_module_features` of `semantic_lifting.rs`: collect the module
data, then write each collected feature list onto its Module entity; returns
the updated graph together with the count of updated files. -/
def aggregate_module_features (g : RPGraph) : RPGraph × Nat :=
  let md := moduleData g
  (md.foldl (fun g' p => setEntityFeatures g' p.1 p.2) g, md.length)

/-! ## `hierarchy.rs`: applying hierarchy assignments -/

/-- A fresh hierarchy node with the given id and name. -/
def newHierarchyNode (id name : String) : HierarchyNode := .mk id name [] [] []

/-- Descend a segment path below a node, creating missing children, and
append the entity id at the final node. -/
def insertSegs (eid : String) : List String → HierarchyNode → HierarchyNode
  | [], node =>
    .mk node.id node.name (node.entities ++ [eid]) node.children
      node.aggregated_features
  | seg :: rest, node =>
    let child := (findAssoc node.children seg).getD
      (newHierarchyNode (node.id ++ "/" ++ seg) seg)
    .mk node.id node.name node.entities
      (setAssoc node.children seg (insertSegs eid rest child))
      node.aggregated_features

/-- Modelled from the spec: `RPGraph::insert_into_hierarchy` lives in
`crates/rpg-core/src/graph.rs`, which is not among the provided sources.
Spec §4.2: create-or-find the node identified by `path` and append the
entity id; node ids have the form `h:<segment>[/<segment>...]` and children
are keyed by segment name (§3). -/
def insert_into_hierarchy (g : RPGraph) (path eid : String) : RPGraph :=
  match splitS '/' path with
  | [] => g
  | seg :: rest =>
    let key := "h:" ++ seg
    let node := (findAssoc g.hierarchy key).getD (newHierarchyNode key seg)
    { g with hierarchy := setAssoc g.hierarchy key (insertSegs eid rest node) }

/-- Descend a segment path below a node without creating anything. -/
def findNodeSegs : List String → HierarchyNode → Option HierarchyNode
  | [], node => some node
  | seg :: rest, node =>
    match findAssoc node.children seg with
    | none => none
    | some c => findNodeSegs rest c

/-- Look up the hierarchy node identified by `path` (the node
`insert_into_hierarchy` targets). -/
def findNodeAt (g : RPGraph) (path : String) : Option HierarchyNode :=
  match splitS '/' path with
  | [] => none
  | seg :: rest =>
    match findAssoc g.hierarchy ("h:" ++ seg) with
    | none => none
    | some n => findNodeSegs rest n

/-- Append `id` to the bucket of `name`
(`map.entry(name).or_default().push(id)`). -/
def bucketAdd (m : List (String × List String)) (name id : String) :
    List (String × List String) :=
  match findAssoc m name with
  | some ids => setAssoc m name (ids ++ [id])
  | none => m ++ [(name, [id])]

/-- The `name → [entity_id]` index built at the top of `apply_hierarchy`. -/
def buildNameIndex (es : List (String × Entity)) : List (String × List String) :=
  es.foldl (fun m p => bucketAdd m p.2.name p.1) []

/-- Set the `hierarchy_path` of the entity stored at `id`, when present. -/
def setEntityPath (g : RPGraph) (id path : String) : RPGraph :=
  { g with entities :=
      updAssoc g.entities id (fun e => { e with hierarchy_path := path }) }

/-- The body of the assignment loop of `apply_hierarchy`: resolve the key
(direct id first, unambiguous bare name second), then either propagate a
Module assignment to all file siblings or assign the single entity. -/
def applyOneAssignment (nameIdx : List (String × List String)) (g : RPGraph)
    (key path : String) : RPGraph :=
  let entity_id : Option String :=
    if (findAssoc g.entities key).isSome then some key
    else
      match findAssoc nameIdx key with
      | some [i] => some i
      | _ => none
  match entity_id with
  | none => g
  | some id =>
    let is_module :=
      match findAssoc g.entities id with
      | some e => e.kind == EntityKind.Module
      | none => false
    if is_module then
      match (findAssoc g.entities id).map (fun e => e.file) with
      | some file =>
        let sibling_ids := (findAssoc g.file_index file).getD []
        sibling_ids.foldl
          (fun g' sid => insert_into_hierarchy (setEntityPath g' sid path) path sid)
          g
      | none => g
    else
      insert_into_hierarchy (setEntityPath g id path) path id

/-- `apply_hierarchy` of `hierarchy.rs`: build the name index once, then
process the assignments in order. -/
def apply_hierarchy (g : RPGraph) (assignments : List (String × String)) :
    RPGraph :=
  let nameIdx := buildNameIndex g.entities
  assignments.foldl (fun g' p => applyOneAssignment nameIdx g' p.1 p.2) g

/-! ## `config.rs`: configuration loading -/

/-- Encoding section of the configuration. -/
structure EncodingConfig where
  batch_size : Nat
  max_batch_tokens : Nat
  hierarchy_chunk_size : Nat
  drift_threshold : Rat
  broadcast_imports : Bool
  max_hierarchy_depth : Nat
deriving DecidableEq, Repr

/-- Navigation section of the configuration. -/
structure NavigationConfig where
  search_result_limit : Nat
deriving DecidableEq, Repr

/-- Storage section of the configuration. -/
structure StorageConfig where
  compress : Bool
deriving DecidableEq, Repr

/-- Top-level configuration. -/
structure RpgConfig where
  encoding : EncodingConfig
  navigation : NavigationConfig
  storage : StorageConfig
deriving DecidableEq, Repr

/-- `impl Default for EncodingConfig`.  `drift_threshold` is the `f64` value
`0.5`, exactly representable and modelled as a rational. -/
def EncodingConfig.default : EncodingConfig :=
  ⟨50, 8000, 50, 1 / 2, false, 3⟩

/-- `impl Default for NavigationConfig`. -/
def NavigationConfig.default : NavigationConfig := ⟨10⟩

/-- Derived `Default` for `StorageConfig` (`bool` defaults to `false`). -/
def StorageConfig.default : StorageConfig := ⟨false⟩

/-- Derived `Default` for `RpgConfig`. -/
def RpgConfig.default : RpgConfig :=
  ⟨EncodingConfig.default, NavigationConfig.default, StorageConfig.default⟩

/-- Model of `<usize as FromStr>::from_str`: an optional leading plus sign,
then one or more ASCII digits, within 64-bit range (a 64-bit target). -/
def parseUsizeRust (s : String) : Option Nat :=
  let ds := match s.data with
    | '+' :: rest => rest
    | cs => cs
  if ds.isEmpty || !ds.all isDigitC then none
  else if digitsVal ds < 2 ^ 64 then some (digitsVal ds) else none

/-- Break a character list at the first character satisfying `p`. -/
def breakAtFirstP (p : Char → Bool) : List Char → List Char × Option (List Char)
  | [] => ([], none)
  | x :: xs =>
    if p x then ([], some xs)
    else
      let r := breakAtFirstP p xs
      (x :: r.1, r.2)

/-- Exponent part of a float literal: optional sign, one or more digits. -/
def parseExpPart (cs : List Char) : Option Int :=
  let sg : Int := match cs with
    | '-' :: _ => -1
    | _ => 1
  let ds := match cs with
    | '+' :: rest => rest
    | '-' :: rest => rest
    | rest => rest
  if ds.isEmpty || !ds.all isDigitC then none
  else some (sg * (digitsVal ds : Int))

/-- Model of `<f64 as FromStr>::from_str` restricted to finite decimal
literals (optional sign, digits with optional fraction, optional exponent),
with exact rational values.  The `inf`/`infinity`/`nan` literals and binary
rounding of the Rust parser are outside the model; no claim depends on them
and the failure set agrees on the inputs at hand. -/
def parseF64Rust (s : String) : Option Rat :=
  let sgn : Rat := match s.data with
    | '-' :: _ => -1
    | _ => 1
  let cs := match s.data with
    | '+' :: rest => rest
    | '-' :: rest => rest
    | rest => rest
  let me := breakAtFirstP (fun c => c == 'e' || c == 'E') cs
  let ipfp := breakAtFirst '.' me.1
  let ip := ipfp.1
  let fp := (ipfp.2).getD []
  if !ip.all isDigitC || !fp.all isDigitC || (ip.isEmpty && fp.isEmpty) then none
  else
    match me.2 with
    | none =>
      some (sgn * ((digitsVal ip : Rat) + (digitsVal fp : Rat) / (10 : Rat) ^ fp.length))
    | some e =>
      match parseExpPart e with
      | none => none
      | some ex =>
        some (sgn * ((digitsVal ip : Rat) + (digitsVal fp : Rat) / (10 : Rat) ^ fp.length)
          * (10 : Rat) ^ ex)

/-- `env_override` of `config.rs` at a `usize` field: look the variable up
and overwrite the target only when the value parses. -/
def envOverrideNat (env : List (String × String)) (var : String) (target : Nat) :
    Nat :=
  match findAssoc env var with
  | some v =>
    match parseUsizeRust v with
    | some n => n
    | none => target
  | none => target

/-- `env_override` of `config.rs` at the `f64` field. -/
def envOverrideRat (env : List (String × String)) (var : String) (target : Rat) :
    Rat :=
  match findAssoc env var with
  | some v =>
    match parseF64Rust v with
    | some n => n
    | none => target
  | none => target

/-- `RpgConfig::load` of `config.rs`.  The filesystem and the TOML parser are
external: `fileConfig` stands for the parsed `.rpg/config.toml` when that
file exists (`none` when it does not, in which case the source falls back to
`Self::default()`), and `env` for the process environment.  The five
documented overrides are then applied in source order. -/
def RpgConfig.load (fileConfig : Option RpgConfig)
    (env : List (String × String)) : RpgConfig :=
  let config := fileConfig.getD RpgConfig.default
  let config := { config with encoding := { config.encoding with
    batch_size := envOverrideNat env "RPG_BATCH_SIZE" config.encoding.batch_size } }
  let config := { config with encoding := { config.encoding with
    max_batch_tokens :=
      envOverrideNat env "RPG_MAX_BATCH_TOKENS" config.encoding.max_batch_tokens } }
  let config := { config with encoding := { config.encoding with
    hierarchy_chunk_size :=
      envOverrideNat env "RPG_HIERARCHY_CHUNK_SIZE" config.encoding.hierarchy_chunk_size } }
  let config := { config with encoding := { config.encoding with
    drift_threshold :=
      envOverrideRat env "RPG_DRIFT_THRESHOLD" config.encoding.drift_threshold } }
  let config := { config with navigation := { config.navigation with
    search_result_limit :=
      envOverrideNat env "RPG_SEARCH_LIMIT" config.navigation.search_result_limit } }
  config

/-! ## Association-list lemmas -/

theorem findAssoc_cons {α : Type} (k' : String) (v' : α) (m : List (String × α))
    (k : String) :
    findAssoc ((k', v') :: m) k = if k' = k then some v' else findAssoc m k := by
  by_cases h : k' = k
  · simp [findAssoc, List.find?_cons_of_pos, h]
  · rw [if_neg h]
    unfold findAssoc
    rw [List.find?_cons_of_neg]
    simp [h]

theorem findAssoc_setAssoc_self {α : Type} (m : List (String × α)) (k : String)
    (v : α) : findAssoc (setAssoc m k v) k = some v := by
  induction m with
  | nil => simp [setAssoc, findAssoc]
  | cons p rest ih =>
    obtain ⟨k', v'⟩ := p
    simp only [setAssoc]
    by_cases h : k' = k
    · simp [h, findAssoc_cons]
    · simp [h, findAssoc_cons, ih]

theorem findAssoc_setAssoc_ne {α : Type} (m : List (String × α)) (k k' : String)
    (v : α) (h : k ≠ k') : findAssoc (setAssoc m k v) k' = findAssoc m k' := by
  induction m with
  | nil => simp [setAssoc, findAssoc_cons, h, findAssoc]
  | cons p rest ih =>
    obtain ⟨k₀, v₀⟩ := p
    simp only [setAssoc]
    by_cases h₀ : k₀ = k
    · subst h₀
      simp [findAssoc_cons, h]
    · simp [h₀, findAssoc_cons, ih]

theorem findAssoc_updAssoc {α : Type} (m : List (String × α)) (k k' : String)
    (f : α → α) :
    findAssoc (updAssoc m k f) k' =
      if k = k' then (findAssoc m k').map f else findAssoc m k' := by
  induction m with
  | nil => simp [updAssoc, findAssoc]
  | cons p rest ih =>
    obtain ⟨k₀, v₀⟩ := p
    simp only [updAssoc]
    by_cases h₀ : k₀ = k
    · subst h₀
      rw [if_pos (by simp), findAssoc_cons, findAssoc_cons]
      by_cases h : k₀ = k' <;> simp [h]
    · rw [if_neg (by simp [h₀]), findAssoc_cons, findAssoc_cons, ih]
      by_cases h : k₀ = k'
      · subst h
        have hne : k ≠ k₀ := fun hh => h₀ hh.symm
        simp [hne]
      · simp [h]

theorem updAssoc_entities_ne {α : Type} (m : List (String × α)) (k k' : String)
    (f : α → α) (h : k ≠ k') : findAssoc (updAssoc m k f) k' = findAssoc m k' := by
  simp [findAssoc_updAssoc, h]

theorem findAssoc_isSome_iff {α : Type} (m : List (String × α)) (k : String) :
    (findAssoc m k).isSome = true ↔ k ∈ m.map Prod.fst := by
  induction m with
  | nil => simp [findAssoc]
  | cons p rest ih =>
    obtain ⟨k₀, v₀⟩ := p
    by_cases h : k₀ = k
    · subst h
      simp [findAssoc_cons]
    · simp [findAssoc_cons, h, ih, Ne.symm h]

theorem findAssoc_eq_none_of_not_mem {α : Type} (m : List (String × α))
    (k : String) (h : k ∉ m.map Prod.fst) : findAssoc m k = none := by
  by_cases hs : (findAssoc m k).isSome = true
  · exact absurd ((findAssoc_isSome_iff m k).mp hs) h
  · cases hfa : findAssoc m k with
    | none => rfl
    | some v => rw [hfa] at hs; simp at hs

theorem setAssoc_of_not_mem {α : Type} (m : List (String × α)) (k : String)
    (v : α) (h : k ∉ m.map Prod.fst) : setAssoc m k v = m ++ [(k, v)] := by
  induction m with
  | nil => simp [setAssoc]
  | cons p rest ih =>
    obtain ⟨k₀, v₀⟩ := p
    simp only [List.map_cons, List.mem_cons] at h
    push_neg at h
    simp only [setAssoc]
    rw [if_neg (by simp [Ne.symm h.1]), ih h.2]
    simp

/-! ## Evaluation lemmas for the current version constant -/

theorem parseSemVer_current : parseSemVer CURRENT_VERSION = some ⟨2, 2, 0, [], []⟩ :=
  rfl

theorem semverLt_current_current : semverLt ⟨2, 2, 0, [], []⟩ ⟨2, 2, 0, [], []⟩ = false :=
  rfl

/-! ## Concrete fixtures (the `graph_with_version` fixture of the tests) -/

/-- Metadata of the fixture graphs. -/
def emptyMetadata : Metadata := ⟨"rust", 0, 0, 0, 0, 0, 0⟩

/-- An otherwise-empty graph carrying the given version string. -/
def graphWithVersion (v : String) : RPGraph :=
  ⟨v, "2025-01-01T00:00:00Z", "2025-01-01T00:00:00Z", emptyMetadata, [], [], [], []⟩

/-! ## C4 — the semver gate -/

/-- C4: `validate_version` succeeds exactly when the version string parses as
semver with major component 2 (the major of `CURRENT_VERSION`); a parseable
version of a different major fails with the major-version-mismatch error; a
non-semver string fails with the invalid-version error; `"3.0.0"` fails while
`"2.1.0"` and `"2.0.3"` succeed. -/
theorem validate_version_characterization :
    (∀ g : RPGraph, validate_version g = .ok () ↔
      ∃ v, parseSemVer g.version = some v ∧ v.major = 2)
    ∧ (∀ (g : RPGraph) (v : SemVer), parseSemVer g.version = some v → v.major ≠ 2 →
        validate_version g = .error
          ("RPG major version mismatch: schema requires " ++ toString (2 : Nat)
            ++ ".x.x, found " ++ g.version))
    ∧ (∀ g : RPGraph, parseSemVer g.version = none →
        validate_version g = .error ("invalid RPG version string: " ++ g.version))
    ∧ validate_version (graphWithVersion "3.0.0") ≠ .ok ()
    ∧ validate_version (graphWithVersion "2.1.0") = .ok ()
    ∧ validate_version (graphWithVersion "2.0.3") = .ok () := by
  refine ⟨?_, ?_, ?_, fun h => Except.noConfusion h, rfl, rfl⟩
  · intro g
    unfold validate_version
    rw [parseSemVer_current]
    cases h : parseSemVer g.version with
    | none => simp
    | some v =>
      by_cases hm : v.major = 2
      · simp [hm]
      · simp [hm]
  · intro g v hp hm
    unfold validate_version
    rw [parseSemVer_current, hp]
    simp [hm]
  · intro g hp
    unfold validate_version
    rw [parseSemVer_current, hp]

/-- Witness for C4 at the concrete inputs `"3.0.0"` (mismatch branch). -/
theorem validate_version_characterization_witness :
    parseSemVer (graphWithVersion "3.0.0").version = some ⟨3, 0, 0, [], []⟩
    ∧ (⟨3, 0, 0, [], []⟩ : SemVer).major ≠ 2
    ∧ validate_version (graphWithVersion "3.0.0") = .error
        ("RPG major version mismatch: schema requires " ++ toString (2 : Nat)
          ++ ".x.x, found " ++ (graphWithVersion "3.0.0").version) :=
  ⟨rfl, by decide,
    validate_version_characterization.2.1 (graphWithVersion "3.0.0")
      ⟨3, 0, 0, [], []⟩ rfl (by decide)⟩

/-! ## C2 — migrate and the version stamp -/

/-- C2 is refuted as stated: `"2.3.0"` parses with major 2, yet `migrate`
returns `Ok` while leaving the version at `"2.3.0"`, which differs from
`CURRENT_VERSION`. -/
theorem migrate_version_counterexample :
    parseSemVer (graphWithVersion "2.3.0").version = some ⟨2, 3, 0, [], []⟩
    ∧ (⟨2, 3, 0, [], []⟩ : SemVer).major = 2
    ∧ migrate (graphWithVersion "2.3.0") = .ok (graphWithVersion "2.3.0")
    ∧ (graphWithVersion "2.3.0").version ≠ CURRENT_VERSION :=
  ⟨rfl, rfl, rfl, by decide⟩

/-- C2 (amended): for every graph whose version string parses as semver
strictly below `CURRENT_VERSION` or equals `"2.2.0"` itself, `migrate`
returns `Ok` and the resulting graph's version equals `CURRENT_VERSION`
(versions above current within major 2 are returned unchanged, refuting the
unrestricted claim). -/
theorem migrate_sets_version_to_current (g : RPGraph)
    (h : (∃ v, parseSemVer g.version = some v ∧ semverLt v ⟨2, 2, 0, [], []⟩ = true)
      ∨ g.version = CURRENT_VERSION) :
    ∃ g', migrate g = .ok g' ∧ g'.version = CURRENT_VERSION := by
  rcases h with ⟨v, hp, hlt⟩ | hv
  · unfold migrate
    rw [parseSemVer_current, hp]
    simp only [hlt, if_true]
    exact ⟨_, rfl, rfl⟩
  · unfold migrate
    rw [parseSemVer_current, hv, parseSemVer_current]
    simp only [semverLt_current_current]
    exact ⟨g, by simp, hv⟩

/-- Witness for (amended) C2 at the concrete graph of version `"2.1.0"`. -/
theorem migrate_sets_version_to_current_witness :
    (parseSemVer (graphWithVersion "2.1.0").version = some ⟨2, 1, 0, [], []⟩
      ∧ semverLt ⟨2, 1, 0, [], []⟩ ⟨2, 2, 0, [], []⟩ = true)
    ∧ ∃ g', migrate (graphWithVersion "2.1.0") = .ok g'
        ∧ g'.version = CURRENT_VERSION :=
  ⟨⟨rfl, rfl⟩, migrate_sets_version_to_current (graphWithVersion "2.1.0")
    (.inl ⟨⟨2, 1, 0, [], []⟩, rfl, rfl⟩)⟩

/-! ## C10 — migrate is a pure version stamp on backslash-free graphs -/

theorem normId_eq_self_of_no_backslash (s : String) (h : '\\' ∉ s.data) :
    normId s = s := by
  unfold normId
  apply String.ext
  show (s.data.map fun c => if c = '\\' then '/' else c) = s.data
  have := List.map_congr_left (l := s.data)
    (f := fun c => if c = '\\' then '/' else c) (g := id)
    (fun c hc => if_neg (fun he : c = '\\' => h (he ▸ hc)))
  simpa using this

theorem rebuild_fold_id (l : List (String × Entity)) :
    ∀ acc : List (String × Entity),
      (∀ p ∈ l, normId p.1 = p.1 ∧ p.2.id = p.1) →
      (∀ p ∈ l, p.1 ∉ acc.map Prod.fst) →
      (l.map Prod.fst).Nodup →
      l.foldl rebuildStep (acc, []) = (acc ++ l, []) := by
  induction l with
  | nil => intro acc _ _ _; simp
  | cons p rest ih =>
    intro acc hfix hfresh hnd
    obtain ⟨hnorm, hid⟩ := hfix p (List.mem_cons_self p rest)
    have hent : ({ p.2 with id := p.1 } : Entity) = p.2 := by
      rw [← hid]
    have hstep : rebuildStep (acc, []) p = (acc ++ [(p.1, p.2)], []) := by
      simp only [rebuildStep, hnorm, ne_eq, not_true_eq_false, if_false]
      rw [hent, setAssoc_of_not_mem acc p.1 p.2 (hfresh p (List.mem_cons_self p rest))]
    rw [List.foldl_cons, hstep]
    simp only [List.map_cons, List.nodup_cons] at hnd
    rw [ih (acc ++ [(p.1, p.2)])
      (fun q hq => hfix q (List.mem_cons_of_mem p hq))
      (fun q hq => by
        simp only [List.map_append, List.mem_append, List.map_cons]
        push_neg
        refine ⟨fun hc => hfresh q (List.mem_cons_of_mem p hq) hc, ?_⟩
        simp only [List.map_nil, List.mem_singleton]
        intro he
        exact hnd.1 (he ▸ List.mem_map_of_mem Prod.fst hq))
      hnd.2]
    simp

/-- C10: for every graph whose version parses strictly below 2.2.0, whose
entities-map keys equal the stored id fields, and whose keys are free of
backslashes, `migrate` changes only the version field: the entities map,
edges, file index, and hierarchy are returned untouched.  (Key lists of the
Rust `HashMap` are duplicate free, whence the `Nodup` hypothesis.) -/
theorem migrate_frame_no_backslash (g : RPGraph) (v : SemVer)
    (hp : parseSemVer g.version = some v)
    (hlt : semverLt v ⟨2, 2, 0, [], []⟩ = true)
    (hids : ∀ p ∈ g.entities, p.2.id = p.1)
    (hnb : ∀ p ∈ g.entities, '\\' ∉ p.1.data)
    (hnd : (g.entities.map Prod.fst).Nodup) :
    migrate g = .ok { g with version := CURRENT_VERSION } := by
  have hmn : migrate_normalize_entity_ids g = g := by
    unfold migrate_normalize_entity_ids
    rw [rebuild_fold_id g.entities []
      (fun p hp' => ⟨normId_eq_self_of_no_backslash p.1 (hnb p hp'), hids p hp'⟩)
      (fun p _ => by simp) hnd]
    simp
  unfold migrate
  rw [parseSemVer_current, hp]
  simp only [hlt, if_true, hmn]

/-- Witness for C10: a concrete backslash-free graph at version 2.1.0. -/
def entC10 : Entity :=
  ⟨"src/auth/login.py:validate", .Function, "validate", "src/auth/login.py",
    1, 10, none, ["validates user credentials"], some "llm", "", ⟨[], [], []⟩, none⟩

/-- The concrete graph used by the C10 witness. -/
def gC10 : RPGraph :=
  { graphWithVersion "2.1.0" with
    entities := [("src/auth/login.py:validate", entC10)]
    file_index := [("src/auth/login.py", ["src/auth/login.py:validate"])] }

/-- Witness for C10, discharging every hypothesis at `gC10`. -/
theorem migrate_frame_no_backslash_witness :
    (parseSemVer gC10.version = some ⟨2, 1, 0, [], []⟩
      ∧ semverLt ⟨2, 1, 0, [], []⟩ ⟨2, 2, 0, [], []⟩ = true
      ∧ (∀ p ∈ gC10.entities, p.2.id = p.1)
      ∧ (∀ p ∈ gC10.entities, '\\' ∉ p.1.data)
      ∧ (gC10.entities.map Prod.fst).Nodup)
    ∧ migrate gC10 = .ok { gC10 with version := CURRENT_VERSION } :=
  ⟨⟨rfl, rfl, by decide, by decide, by decide⟩,
    migrate_frame_no_backslash gC10 ⟨2, 1, 0, [], []⟩ rfl rfl
      (by decide) (by decide) (by decide)⟩

/-! ## Sorting lemmas for the stable sort -/

theorem mem_insertSorted {α : Type} (le : α → α → Bool) (x a : α) (l : List α) :
    a ∈ insertSorted le x l ↔ a = x ∨ a ∈ l := by
  induction l with
  | nil => simp [insertSorted]
  | cons y ys ih =>
    by_cases h : le x y = true
    · simp [insertSorted, h]
    · simp only [insertSorted, if_neg h, List.mem_cons, ih]
      tauto

theorem insertSorted_pairwise {α : Type} (le : α → α → Bool)
    (htrans : ∀ a b c, le a b = true → le b c = true → le a c = true)
    (htot : ∀ a b, le a b = true ∨ le b a = true) (x : α) (l : List α)
    (h : List.Pairwise (fun a b => le a b = true) l) :
    List.Pairwise (fun a b => le a b = true) (insertSorted le x l) := by
  induction l with
  | nil => simp [insertSorted]
  | cons y ys ih =>
    rw [List.pairwise_cons] at h
    by_cases hxy : le x y = true
    · rw [insertSorted, if_pos hxy, List.pairwise_cons]
      refine ⟨?_, List.pairwise_cons.mpr h⟩
      intro b hb
      rcases List.mem_cons.mp hb with hb | hb
      · exact hb ▸ hxy
      · exact htrans x y b hxy (h.1 b hb)
    · rw [insertSorted, if_neg hxy, List.pairwise_cons]
      have hyx : le y x = true := by
        rcases htot x y with hc | hc
        · exact absurd hc hxy
        · exact hc
      refine ⟨?_, ih h.2⟩
      intro b hb
      rcases (mem_insertSorted le x b ys).mp hb with hb | hb
      · exact hb ▸ hyx
      · exact h.1 b hb

theorem stableSort_pairwise {α : Type} (le : α → α → Bool)
    (htrans : ∀ a b c, le a b = true → le b c = true → le a c = true)
    (htot : ∀ a b, le a b = true ∨ le b a = true) (l : List α) :
    List.Pairwise (fun a b => le a b = true) (stableSort le l) := by
  induction l with
  | nil => exact List.Pairwise.nil
  | cons x xs ih => exact insertSorted_pairwise le htrans htot x _ ih

theorem mem_stableSort {α : Type} (le : α → α → Bool) (a : α) (l : List α) :
    a ∈ stableSort le l ↔ a ∈ l := by
  induction l with
  | nil => simp [stableSort]
  | cons x xs ih =>
    rw [stableSort, mem_insertSorted, ih, List.mem_cons]

theorem stableSort_of_sorted {α : Type} (le : α → α → Bool) (l : List α)
    (h : List.Pairwise (fun a b => le a b = true) l) : stableSort le l = l := by
  induction l with
  | nil => rfl
  | cons x xs ih =>
    rw [List.pairwise_cons] at h
    rw [stableSort, ih h.2]
    cases xs with
    | nil => rfl
    | cons y ys =>
      rw [insertSorted, if_pos (h.1 y (List.mem_cons_self y ys))]

/-! ## C3 — serialization round-trip -/

/-- Sorting leaves an already-sorted edge list unchanged. -/
theorem sortEdges_of_sorted (es : List DependencyEdge)
    (h : List.Pairwise (fun a b => edgeLe a b = true) es) : sortEdges es = es :=
  stableSort_of_sorted edgeLe es h

/-- `validate_version` accepts a graph carrying exactly `CURRENT_VERSION`. -/
theorem validate_version_ok_of_current (g : RPGraph)
    (hv : g.version = CURRENT_VERSION) : validate_version g = .ok () := by
  unfold validate_version
  rw [parseSemVer_current, hv, parseSemVer_current]
  simp

/-- `migrate` returns a graph at `CURRENT_VERSION` unchanged. -/
theorem migrate_ok_of_current (g : RPGraph)
    (hv : g.version = CURRENT_VERSION) : migrate g = .ok g := by
  unfold migrate
  rw [parseSemVer_current, hv, parseSemVer_current]
  simp [semverLt_current_current]

/-- Two edges witnessing an unsorted edge list. -/
def edgeA : DependencyEdge := ⟨"a", "t", .Invokes⟩

/-- Second counterexample edge (sorts after `edgeA`). -/
def edgeB : DependencyEdge := ⟨"b", "t", .Invokes⟩

/-- A graph at `CURRENT_VERSION` whose edge list is not sorted. -/
def gUnsorted : RPGraph :=
  { graphWithVersion "2.2.0" with edges := [edgeB, edgeA] }

/-- C3 is refuted as stated: for the graph `gUnsorted` at `CURRENT_VERSION`
with unsorted edges, `from_json (to_json g)` succeeds but returns the graph
with its edges sorted, which differs from `g`. -/
theorem roundtrip_counterexample :
    gUnsorted.version = CURRENT_VERSION
    ∧ from_json (to_json gUnsorted) = .ok { gUnsorted with edges := [edgeA, edgeB] }
    ∧ { gUnsorted with edges := [edgeA, edgeB] } ≠ gUnsorted :=
  ⟨rfl, rfl, fun h => absurd (congrArg RPGraph.edges h) (by decide)⟩

/-- C3 (amended): for every graph at `CURRENT_VERSION` whose edge list is
already sorted by `(source, target, kind)`, `from_json (to_json g)` succeeds
and returns `g` itself (serialization sorts the edges, so an unsorted graph
comes back with sorted edges instead). -/
theorem from_json_to_json_roundtrip (g : RPGraph)
    (hv : g.version = CURRENT_VERSION)
    (hs : List.Pairwise (fun a b => edgeLe a b = true) g.edges) :
    from_json (to_json g) = .ok g := by
  have hdoc : to_json g = ⟨g⟩ := by
    unfold to_json
    rw [sortEdges_of_sorted g.edges hs]
  rw [hdoc]
  unfold from_json
  rw [validate_version_ok_of_current g hv]
  exact migrate_ok_of_current g hv

/-- Witness for (amended) C3 at a concrete sorted graph. -/
theorem from_json_to_json_roundtrip_witness :
    ((graphWithVersion "2.2.0").version = CURRENT_VERSION
      ∧ List.Pairwise (fun a b => edgeLe a b = true) (graphWithVersion "2.2.0").edges)
    ∧ from_json (to_json (graphWithVersion "2.2.0")) = .ok (graphWithVersion "2.2.0") :=
  ⟨⟨rfl, by simp [graphWithVersion]⟩,
    from_json_to_json_roundtrip (graphWithVersion "2.2.0") rfl
      (by simp [graphWithVersion])⟩

/-! ## C9 — configuration loading -/

/-- A `usize` override whose value does not parse leaves the target as is. -/
theorem envOverrideNat_id (env : List (String × String)) (var : String) (t : Nat)
    (h : ∀ v, findAssoc env var = some v → parseUsizeRust v = none) :
    envOverrideNat env var t = t := by
  unfold envOverrideNat
  cases hv : findAssoc env var with
  | none => rfl
  | some v =>
    show (match parseUsizeRust v with
      | some n => n
      | none => t) = t
    rw [h v hv]

/-- An `f64` override whose value does not parse leaves the target as is. -/
theorem envOverrideRat_id (env : List (String × String)) (var : String) (t : Rat)
    (h : ∀ v, findAssoc env var = some v → parseF64Rust v = none) :
    envOverrideRat env var t = t := by
  unfold envOverrideRat
  cases hv : findAssoc env var with
  | none => rfl
  | some v =>
    show (match parseF64Rust v with
      | some n => n
      | none => t) = t
    rw [h v hv]

/-- C9 is refuted as stated: with no config file but `RPG_BATCH_SIZE=7` set
in the environment, `load` returns batch size 7, not the default
configuration. -/
theorem config_load_counterexample :
    (RpgConfig.load none [("RPG_BATCH_SIZE", "7")]).encoding.batch_size = 7
    ∧ RpgConfig.default.encoding.batch_size = 50
    ∧ RpgConfig.load none [("RPG_BATCH_SIZE", "7")] ≠ RpgConfig.default :=
  ⟨rfl, rfl,
    fun h => absurd (congrArg (fun c => c.encoding.batch_size) h) (by decide)⟩

/-- C9 (amended): when no config file exists and every recognized
environment variable is unset or fails to parse, `load` returns the default
configuration (batch_size 50, max_batch_tokens 8000, hierarchy_chunk_size
50, drift_threshold 0.5, broadcast_imports false, max_hierarchy_depth 3,
search_result_limit 10, compress false); and, for any field, an override
whose value fails to parse is silently ignored, leaving the previous value
unchanged. -/
theorem config_load_defaults (env : List (String × String))
    (h1 : ∀ v, findAssoc env "RPG_BATCH_SIZE" = some v → parseUsizeRust v = none)
    (h2 : ∀ v, findAssoc env "RPG_MAX_BATCH_TOKENS" = some v → parseUsizeRust v = none)
    (h3 : ∀ v, findAssoc env "RPG_HIERARCHY_CHUNK_SIZE" = some v → parseUsizeRust v = none)
    (h4 : ∀ v, findAssoc env "RPG_DRIFT_THRESHOLD" = some v → parseF64Rust v = none)
    (h5 : ∀ v, findAssoc env "RPG_SEARCH_LIMIT" = some v → parseUsizeRust v = none) :
    (RpgConfig.load none env = RpgConfig.default
      ∧ RpgConfig.default.encoding.batch_size = 50
      ∧ RpgConfig.default.encoding.max_batch_tokens = 8000
      ∧ RpgConfig.default.encoding.hierarchy_chunk_size = 50
      ∧ RpgConfig.default.encoding.drift_threshold = 1 / 2
      ∧ RpgConfig.default.encoding.broadcast_imports = false
      ∧ RpgConfig.default.encoding.max_hierarchy_depth = 3
      ∧ RpgConfig.default.navigation.search_result_limit = 10
      ∧ RpgConfig.default.storage.compress = false)
    ∧ (∀ (env' : List (String × String)) (var : String) (t : Nat),
        (∀ v, findAssoc env' var = some v → parseUsizeRust v = none) →
        envOverrideNat env' var t = t)
    ∧ (∀ (env' : List (String × String)) (var : String) (t : Rat),
        (∀ v, findAssoc env' var = some v → parseF64Rust v = none) →
        envOverrideRat env' var t = t) := by
  refine ⟨⟨?_, rfl, rfl, rfl, rfl, rfl, rfl, rfl, rfl⟩,
    envOverrideNat_id, envOverrideRat_id⟩
  simp only [RpgConfig.load]
  rw [envOverrideNat_id env _ _ h1, envOverrideNat_id env _ _ h2,
    envOverrideNat_id env _ _ h3, envOverrideRat_id env _ _ h4,
    envOverrideNat_id env _ _ h5]
  rfl

/-- Witness for (amended) C9: no file, `RPG_BATCH_SIZE` set to the
unparseable value `"abc"`. -/
theorem config_load_defaults_witness :
    parseUsizeRust "abc" = none
    ∧ RpgConfig.load none [("RPG_BATCH_SIZE", "abc")] = RpgConfig.default :=
  ⟨rfl,
    (config_load_defaults [("RPG_BATCH_SIZE", "abc")]
      (fun v hv => by cases Option.some.inj hv; rfl)
      (fun v hv => Option.noConfusion hv)
      (fun v hv => Option.noConfusion hv)
      (fun v hv => Option.noConfusion hv)
      (fun v hv => Option.noConfusion hv)).1.1⟩

/-! ## C5 — pipe-delimited parsing -/

/-- The per-line rule of `parse_line_features` as the specification states
it: after trimming, skip empty lines, lines beginning with `#`, lines
beginning with a code fence, and lines containing no pipe; otherwise split
at the first pipe, skip the entry when the left part trims to empty, and
produce the trimmed name together with the comma-split right part, each
feature trimmed and lowercased and empty features dropped. -/
def lineEntryClaim (rawLine : String) : Option (String × List String) :=
  let line := trimS rawLine
  if line.isEmpty || startsWithS "#" line || startsWithS "```" line
      || !line.data.contains '|' then none
  else
    let parts := breakAtFirst '|' line.data
    let name := trimS ⟨parts.1⟩
    if name.isEmpty then none
    else some (name, ((splitListOn ',' (parts.2.getD [])).map
      (fun cs => toLowerS (trimS ⟨cs⟩))).filter (fun f => !f.isEmpty))

/-- `parse_line_features` as the specification describes it: first remove
paired think blocks (truncating at the open tag when unterminated), then
record every entry the per-line rule produces — an entry whose feature list
is empty is still recorded. -/
def parse_line_features_claim (text : String) : List (String × List String) :=
  (rustLines (strip_think_blocks text)).foldl
    (fun acc line =>
      match lineEntryClaim line with
      | none => acc
      | some e => setAssoc acc e.1 e.2) []

theorem lineStep_eq_claim (acc : List (String × List String)) (line : String) :
    lineStep acc line =
      match lineEntryClaim line with
      | none => acc
      | some e => setAssoc acc e.1 e.2 := by
  unfold lineStep lineEntryClaim
  by_cases h1 : (trimS line).isEmpty
  · simp [h1]
  · by_cases h2 : startsWithS "#" (trimS line)
    · simp [h1, h2]
    · by_cases h3 : startsWithS "```" (trimS line)
      · simp [h1, h2, h3]
      · by_cases h4 : (trimS line).data.contains '|'
        · have h4' : '|' ∈ (trimS line).data := by simpa using h4
          by_cases h5 : (trimS ⟨(breakAtFirst '|' (trimS line).data).1⟩).isEmpty
          · simp [h1, h2, h3, h4, h4', h5]
          · simp [h1, h2, h3, h4, h4', h5]
        · have h4' : '|' ∉ (trimS line).data := by simpa using h4
          simp [h1, h2, h3, h4, h4']

/-- C5: `parse_line_features` computes exactly the per-line mapping the
specification describes — think blocks removed first, each remaining line
trimmed and filtered by the skip rules, names and features trimmed,
features lowercased, empty features dropped, and stub entries with an empty
feature list still recorded. -/
theorem parse_line_features_correct (t : String) :
    parse_line_features t = parse_line_features_claim t := by
  unfold parse_line_features parse_line_features_claim
  suffices h : ∀ (ls : List String) (acc : List (String × List String)),
      ls.foldl lineStep acc = ls.foldl
        (fun acc line =>
          match lineEntryClaim line with
          | none => acc
          | some e => setAssoc acc e.1 e.2) acc by
    exact h _ []
  intro ls
  induction ls with
  | nil => intro acc; rfl
  | cons l ls ih =>
    intro acc
    rw [List.foldl_cons, List.foldl_cons, lineStep_eq_claim]
    exact ih _

/-! ## C8 — normalization: character and trimming lemmas -/

theorem charOfNat_toNat {n : Nat} (h : n < 55296) : (Char.ofNat n).toNat = n := by
  have hv : n.isValidChar := Or.inl h
  unfold Char.ofNat
  rw [dif_pos hv]
  rfl

theorem toNat_toLowerC (c : Char) :
    (toLowerC c).toNat =
      if 65 ≤ c.toNat ∧ c.toNat ≤ 90 then c.toNat + 32 else c.toNat := by
  unfold toLowerC
  by_cases h : 65 ≤ c.toNat ∧ c.toNat ≤ 90
  · rw [if_pos h, if_pos h, charOfNat_toNat (by omega)]
  · rw [if_neg h, if_neg h]

theorem toLowerC_eq_self (c : Char) (h : ¬(65 ≤ c.toNat ∧ c.toNat ≤ 90)) :
    toLowerC c = c := by
  unfold toLowerC
  rw [if_neg h]

theorem toLowerC_toLowerC (c : Char) : toLowerC (toLowerC c) = toLowerC c := by
  have ht := toNat_toLowerC c
  by_cases h : 65 ≤ c.toNat ∧ c.toNat ≤ 90
  · rw [if_pos h] at ht
    exact toLowerC_eq_self _ (fun hcon => by rw [ht] at hcon; omega)
  · rw [toLowerC_eq_self c h, toLowerC_eq_self c h]

theorem isWsC_toLowerC (c : Char) : isWsC (toLowerC c) = isWsC c := by
  have ht := toNat_toLowerC c
  by_cases h : 65 ≤ c.toNat ∧ c.toNat ≤ 90
  · rw [if_pos h] at ht
    unfold isWsC
    have hfalse : ∀ m : Nat, 65 ≤ m →
        (decide (m = 32) || decide (m = 9) || decide (m = 10)
          || decide (m = 11) || decide (m = 12) || decide (m = 13)) = false := by
      intro m hm
      simp only [Bool.or_eq_false_iff, decide_eq_false_iff_not]
      omega
    rw [ht, hfalse _ (by omega), hfalse _ (by omega)]
  · rw [toLowerC_eq_self c h]

theorem dropWhile_self_idem {α : Type} (p : α → Bool) (l : List α) :
    List.dropWhile p (List.dropWhile p l) = List.dropWhile p l := by
  induction l with
  | nil => rfl
  | cons x xs ih =>
    by_cases h : p x
    · simp [List.dropWhile_cons, h, ih]
    · simp [List.dropWhile_cons, h]

theorem head?_dropWhile_ws {α : Type} (p : α → Bool) (l : List α) (a : α)
    (h : (List.dropWhile p l).head? = some a) : p a = false := by
  induction l with
  | nil => simp [List.dropWhile] at h
  | cons x xs ih =>
    by_cases hp : p x
    · rw [List.dropWhile_cons, if_pos hp] at h
      exact ih h
    · rw [List.dropWhile_cons, if_neg hp] at h
      simp only [List.head?_cons, Option.some.injEq] at h
      rw [← h]
      exact Bool.eq_false_iff.mpr hp

theorem dropWhile_eq_self_of_head? {α : Type} (p : α → Bool) (l : List α)
    (h : ∀ a, l.head? = some a → p a = false) : List.dropWhile p l = l := by
  cases l with
  | nil => rfl
  | cons x xs =>
    rw [List.dropWhile_cons, if_neg]
    simp [h x rfl]

/-- The right-trim half of `trimChars` returns a prefix of its input. -/
theorem rtrim_prefix (l : List Char) :
    ((l.reverse.dropWhile isWsC).reverse) <+: l := by
  have h := (List.dropWhile_suffix (l := l.reverse) isWsC).reverse
  simpa using h

theorem head?_trimChars (l : List Char) (a : Char)
    (h : (trimChars l).head? = some a) : isWsC a = false := by
  have hpre : trimChars l <+: l.dropWhile isWsC := rtrim_prefix (l.dropWhile isWsC)
  obtain ⟨u, hu⟩ := hpre
  have hh : (l.dropWhile isWsC).head? = some a := by
    rw [← hu]
    cases ht : trimChars l with
    | nil => rw [ht] at h; simp at h
    | cons x t =>
      rw [ht] at h
      simpa using h
  exact head?_dropWhile_ws isWsC l a hh

theorem getLast?_trimChars (l : List Char) (a : Char)
    (h : (trimChars l).getLast? = some a) : isWsC a = false := by
  unfold trimChars at h
  rw [List.getLast?_reverse] at h
  exact head?_dropWhile_ws isWsC (l.dropWhile isWsC).reverse a h

theorem trimChars_trimChars (l : List Char) :
    trimChars (trimChars l) = trimChars l := by
  have hl : List.dropWhile isWsC (trimChars l) = trimChars l :=
    dropWhile_eq_self_of_head? isWsC (trimChars l)
      (fun a ha => head?_trimChars l a ha)
  show ((List.dropWhile isWsC (trimChars l)).reverse.dropWhile isWsC).reverse
    = trimChars l
  rw [hl]
  have hr : List.dropWhile isWsC (trimChars l).reverse = (trimChars l).reverse :=
    dropWhile_eq_self_of_head? isWsC (trimChars l).reverse
      (fun a ha => getLast?_trimChars l a (by rwa [← List.head?_reverse]))
  rw [hr, List.reverse_reverse]

theorem trimChars_map_toLowerC (l : List Char) :
    trimChars (l.map toLowerC) = (trimChars l).map toLowerC := by
  have hcomp : (isWsC ∘ toLowerC) = isWsC := funext isWsC_toLowerC
  unfold trimChars
  rw [List.dropWhile_map, hcomp, ← List.map_reverse, List.dropWhile_map, hcomp,
    ← List.map_reverse]

/-- The per-feature operation of `normalize_features`. -/
def trimLower (f : String) : String := toLowerS (trimS f)

theorem trimLower_trimLower (f : String) : trimLower (trimLower f) = trimLower f := by
  unfold trimLower toLowerS trimS
  apply String.ext
  show ((trimChars ((trimChars f.data).map toLowerC)).map toLowerC)
    = (trimChars f.data).map toLowerC
  rw [trimChars_map_toLowerC, trimChars_trimChars, List.map_map]
  exact List.map_congr_left (fun c _ => toLowerC_toLowerC c)

/-! ## C8 — an order theory for the computable string comparison -/

theorem ordering_then_eq_eq (o p : Ordering) :
    o.then p = .eq ↔ o = .eq ∧ p = .eq := by
  cases o <;> simp [Ordering.then]

theorem ordering_then_eq_lt (o p : Ordering) :
    o.then p = .lt ↔ o = .lt ∨ (o = .eq ∧ p = .lt) := by
  cases o <;> simp [Ordering.then]

theorem ordering_then_swap (o p : Ordering) :
    (o.then p).swap = o.swap.then p.swap := by
  cases o <;> cases p <;> rfl

theorem cmpNat_lt_iff (a b : Nat) : cmpNat a b = .lt ↔ a < b := by
  unfold cmpNat
  by_cases h1 : a < b
  · simp [h1]
  · by_cases h2 : a = b <;> simp [h1, h2]

theorem cmpNat_eq_iff (a b : Nat) : cmpNat a b = .eq ↔ a = b := by
  unfold cmpNat
  by_cases h1 : a < b
  · simp [h1]
    omega
  · by_cases h2 : a = b <;> simp [h1, h2]

theorem cmpNat_swap (a b : Nat) : cmpNat a b = (cmpNat b a).swap := by
  unfold cmpNat
  rcases Nat.lt_trichotomy a b with h | h | h
  · rw [if_pos h, if_neg (by omega), if_neg (by omega)]
    rfl
  · subst h
    rw [if_neg (by omega), if_pos rfl]
    rfl
  · rw [if_neg (by omega), if_neg (by omega), if_pos h]
    rfl

theorem charToNat_inj {c d : Char} (h : c.toNat = d.toNat) : c = d := by
  rw [← Char.ofNat_toNat c, ← Char.ofNat_toNat d, h]

theorem cmpCharList_eq_iff (a : List Char) :
    ∀ b, cmpCharList a b = .eq ↔ a = b := by
  induction a with
  | nil => intro b; cases b <;> simp [cmpCharList]
  | cons x xs ih =>
    intro b
    cases b with
    | nil => simp [cmpCharList]
    | cons y ys =>
      show (cmpNat x.toNat y.toNat).then (cmpCharList xs ys) = .eq
        ↔ x :: xs = y :: ys
      rw [ordering_then_eq_eq, cmpNat_eq_iff, ih ys]
      constructor
      · rintro ⟨h1, h2⟩
        rw [charToNat_inj h1, h2]
      · rintro h
        injection h with h1 h2
        exact ⟨by rw [h1], h2⟩

theorem cmpCharList_swap (a : List Char) :
    ∀ b, cmpCharList a b = (cmpCharList b a).swap := by
  induction a with
  | nil => intro b; cases b <;> rfl
  | cons x xs ih =>
    intro b
    cases b with
    | nil => rfl
    | cons y ys =>
      show (cmpNat x.toNat y.toNat).then (cmpCharList xs ys)
        = ((cmpNat y.toNat x.toNat).then (cmpCharList ys xs)).swap
      rw [ordering_then_swap, ← cmpNat_swap, ← ih ys]

theorem cmpCharList_lt_trans (a : List Char) :
    ∀ b c, cmpCharList a b = .lt → cmpCharList b c = .lt →
      cmpCharList a c = .lt := by
  induction a with
  | nil =>
    intro b c h1 h2
    cases b <;> cases c <;> simp_all [cmpCharList]
  | cons x xs ih =>
    intro b c h1 h2
    cases b with
    | nil => simp [cmpCharList] at h1
    | cons y ys =>
      cases c with
      | nil => simp [cmpCharList] at h2
      | cons z zs =>
        rw [show cmpCharList (x :: xs) (y :: ys)
          = (cmpNat x.toNat y.toNat).then (cmpCharList xs ys) from rfl,
          ordering_then_eq_lt, cmpNat_lt_iff, cmpNat_eq_iff] at h1
        rw [show cmpCharList (y :: ys) (z :: zs)
          = (cmpNat y.toNat z.toNat).then (cmpCharList ys zs) from rfl,
          ordering_then_eq_lt, cmpNat_lt_iff, cmpNat_eq_iff] at h2
        rw [show cmpCharList (x :: xs) (z :: zs)
          = (cmpNat x.toNat z.toNat).then (cmpCharList xs zs) from rfl,
          ordering_then_eq_lt, cmpNat_lt_iff, cmpNat_eq_iff]
        rcases h1 with h1 | ⟨h1e, h1r⟩ <;> rcases h2 with h2 | ⟨h2e, h2r⟩
        · left; omega
        · left; omega
        · left; omega
        · right; exact ⟨by omega, ih ys zs h1r h2r⟩

theorem cmpStr_self (a : String) : cmpStr a a = .eq :=
  (cmpCharList_eq_iff a.data a.data).mpr rfl

theorem cmpStr_eq_iff (a b : String) : cmpStr a b = .eq ↔ a = b := by
  constructor
  · intro h
    exact String.ext ((cmpCharList_eq_iff a.data b.data).mp h)
  · rintro rfl
    exact cmpStr_self a

theorem cmpStr_swap (a b : String) : cmpStr a b = (cmpStr b a).swap :=
  cmpCharList_swap a.data b.data

theorem cmpStr_lt_trans {a b c : String} (h1 : cmpStr a b = .lt)
    (h2 : cmpStr b c = .lt) : cmpStr a c = .lt :=
  cmpCharList_lt_trans a.data b.data c.data h1 h2

theorem strLe_of_lt {a b : String} (h : cmpStr a b = .lt) : strLe a b = true := by
  unfold strLe
  rw [h]
  rfl

theorem strLe_iff (a b : String) :
    strLe a b = true ↔ cmpStr a b = .lt ∨ a = b := by
  unfold strLe
  cases h : cmpStr a b with
  | lt =>
    constructor
    · intro _; exact Or.inl rfl
    · intro _; rfl
  | eq =>
    constructor
    · intro _; exact Or.inr ((cmpStr_eq_iff a b).mp h)
    · intro _; rfl
  | gt =>
    constructor
    · intro hc; exact Bool.noConfusion hc
    · rintro (hc | he)
      · exact Ordering.noConfusion hc
      · rw [he, cmpStr_self] at h
        exact Ordering.noConfusion h

theorem ne_of_strLt {a b : String} (h : cmpStr a b = .lt) : a ≠ b := by
  intro he
  rw [he, cmpStr_self] at h
  exact Ordering.noConfusion h

theorem strLt_of_le_of_ne {a b : String} (h : strLe a b = true) (hne : a ≠ b) :
    cmpStr a b = .lt := by
  rcases (strLe_iff a b).mp h with h | h
  · exact h
  · exact absurd h hne

theorem strLe_antisymm {a b : String} (h1 : strLe a b = true)
    (h2 : strLe b a = true) : a = b := by
  rcases (strLe_iff a b).mp h1 with h1 | h1
  · rcases (strLe_iff b a).mp h2 with h2 | h2
    · exact absurd (cmpStr_lt_trans h1 h2) (fun hc => ne_of_strLt hc rfl)
    · exact h2.symm
  · exact h1

theorem strLe_trans {a b c : String} (h1 : strLe a b = true)
    (h2 : strLe b c = true) : strLe a c = true := by
  rcases (strLe_iff a b).mp h1 with h1 | h1
  · rcases (strLe_iff b c).mp h2 with h2 | h2
    · exact strLe_of_lt (cmpStr_lt_trans h1 h2)
    · rw [← h2]
      exact strLe_of_lt h1
  · rw [h1]
    exact h2

theorem strLe_total (a b : String) : strLe a b = true ∨ strLe b a = true := by
  cases h : cmpStr a b with
  | lt => exact Or.inl (strLe_of_lt h)
  | eq => exact Or.inl ((strLe_iff a b).mpr (Or.inr ((cmpStr_eq_iff a b).mp h)))
  | gt =>
    right
    apply strLe_of_lt
    have := cmpStr_swap b a
    rw [h] at this
    -- swapping a gt gives an lt
    cases hba : cmpStr b a <;> rw [hba] at this <;> first | rfl | exact Ordering.noConfusion this

/-! ## C8 — deduplication and sortedness lemmas -/

theorem dedupConsec_sublist (l : List String) : (dedupConsec l).Sublist l := by
  induction l with
  | nil => simp [dedupConsec]
  | cons a rest ih =>
    cases rest with
    | nil => simp [dedupConsec]
    | cons b r2 =>
      show List.Sublist
        (if a = b then dedupConsec (b :: r2) else a :: dedupConsec (b :: r2))
        (a :: b :: r2)
      by_cases h : a = b
      · rw [if_pos h]
        exact ih.cons a
      · rw [if_neg h]
        exact ih.cons₂ a

theorem pairwise_lt_dedupConsec (l : List String)
    (h : List.Pairwise (fun a b => strLe a b = true) l) :
    List.Pairwise (fun a b => cmpStr a b = .lt) (dedupConsec l) := by
  induction l with
  | nil => exact .nil
  | cons a rest ih =>
    cases rest with
    | nil => simp [dedupConsec]
    | cons b r2 =>
      rw [List.pairwise_cons] at h
      show List.Pairwise (fun a b => cmpStr a b = .lt)
        (if a = b then dedupConsec (b :: r2) else a :: dedupConsec (b :: r2))
      by_cases hab : a = b
      · rw [if_pos hab]
        exact ih h.2
      · rw [if_neg hab]
        refine List.pairwise_cons.mpr ⟨?_, ih h.2⟩
        intro c hc
        have hcmem : c ∈ b :: r2 := (dedupConsec_sublist (b :: r2)).subset hc
        have hac : strLe a c = true := h.1 c hcmem
        rcases List.mem_cons.mp hcmem with rfl | hcr
        · exact strLt_of_le_of_ne hac hab
        · refine strLt_of_le_of_ne hac ?_
          intro he
          have hbc : strLe b c = true := (List.pairwise_cons.mp h.2).1 c hcr
          have hab' : strLe a b = true := h.1 b (List.mem_cons_self b r2)
          exact hab (strLe_antisymm hab' (he ▸ hbc))

theorem dedupConsec_eq_self (l : List String)
    (h : List.Chain' (· ≠ ·) l) : dedupConsec l = l := by
  induction l with
  | nil => rfl
  | cons a rest ih =>
    cases rest with
    | nil => rfl
    | cons b r2 =>
      rw [List.chain'_cons] at h
      show (if a = b then dedupConsec (b :: r2) else a :: dedupConsec (b :: r2))
        = a :: b :: r2
      rw [if_neg h.1, ih h.2]

theorem sortStrings_pairwise (l : List String) :
    List.Pairwise (fun a b => strLe a b = true) (sortStrings l) :=
  stableSort_pairwise strLe (fun _ _ _ => strLe_trans) strLe_total l

theorem sortStrings_of_sorted (l : List String)
    (h : List.Pairwise (fun a b => strLe a b = true) l) : sortStrings l = l :=
  stableSort_of_sorted strLe l h

theorem mem_sortStrings (a : String) (l : List String) :
    a ∈ sortStrings l ↔ a ∈ l :=
  mem_stableSort strLe a l

/-- `normalizeList` written with the named per-feature operation. -/
theorem normalizeList_eq (fs : List String) :
    normalizeList fs
      = (dedupConsec (sortStrings (fs.map trimLower))).filter
          (fun f => !f.isEmpty) := rfl

theorem normalizeList_sorted_lt (fs : List String) :
    List.Pairwise (fun a b => cmpStr a b = .lt) (normalizeList fs) := by
  rw [normalizeList_eq]
  exact List.Pairwise.filter _
    (pairwise_lt_dedupConsec _ (sortStrings_pairwise _))

theorem mem_normalizeList (fs : List String) (x : String)
    (h : x ∈ normalizeList fs) : trimLower x = x ∧ x.isEmpty = false := by
  rw [normalizeList_eq] at h
  have hmem := List.mem_filter.mp h
  have hx : x ∈ fs.map trimLower :=
    (mem_sortStrings x _).mp ((dedupConsec_sublist _).subset hmem.1)
  obtain ⟨y, _, rfl⟩ := List.mem_map.mp hx
  exact ⟨trimLower_trimLower y, by simpa using hmem.2⟩

theorem normalizeList_idem (fs : List String) :
    normalizeList (normalizeList fs) = normalizeList fs := by
  have hfix : (normalizeList fs).map trimLower = normalizeList fs := by
    have := List.map_congr_left (l := normalizeList fs) (f := trimLower) (g := id)
      (fun x hx => (mem_normalizeList fs x hx).1)
    simpa using this
  have hlt := normalizeList_sorted_lt fs
  have hle : List.Pairwise (fun a b => strLe a b = true) (normalizeList fs) :=
    hlt.imp (fun h => strLe_of_lt h)
  have hne : List.Chain' (· ≠ ·) (normalizeList fs) :=
    (hlt.imp (fun h => ne_of_strLt h)).chain'
  have hq : (normalizeList fs).filter (fun f => !f.isEmpty) = normalizeList fs :=
    List.filter_eq_self.mpr
      (fun x hx => by simpa using (mem_normalizeList fs x hx).2)
  rw [normalizeList_eq (normalizeList fs), hfix,
    sortStrings_of_sorted _ hle, dedupConsec_eq_self _ hne, hq]

/-- C8: `normalize_features` is idempotent — applying it twice equals
applying it once — and after one application every feature list has each
entry trimmed and lowercased (a fixed point of trim-then-lowercase), is free
of duplicates including non-consecutive ones, and contains no empty strings.
Totality holds by construction: the function is a terminating map over the
input. -/
theorem normalize_features_idempotent :
    (∀ m, normalize_features (normalize_features m) = normalize_features m)
    ∧ (∀ m p, p ∈ normalize_features m →
        p.2.Nodup
        ∧ (∀ f ∈ p.2, toLowerS (trimS f) = f)
        ∧ (∀ f ∈ p.2, f ≠ "")) := by
  constructor
  · intro m
    unfold normalize_features
    rw [List.map_map]
    exact List.map_congr_left (fun p _ => by
      show (p.1, normalizeList (normalizeList p.2)) = (p.1, normalizeList p.2)
      rw [normalizeList_idem])
  · intro m p hp
    unfold normalize_features at hp
    obtain ⟨q, _, rfl⟩ := List.mem_map.mp hp
    refine ⟨?_, ?_, ?_⟩
    · exact (normalizeList_sorted_lt q.2).imp (fun h => ne_of_strLt h)
    · exact fun f hf => (mem_normalizeList q.2 f hf).1
    · intro f hf he
      have h2 := (mem_normalizeList q.2 f hf).2
      rw [he, (String.isEmpty_iff "").mpr rfl] at h2
      exact Bool.noConfusion h2

/-- Witness for C8 at a concrete map (a feature needing trim, lowercasing
and non-consecutive deduplication). -/
theorem normalize_features_idempotent_witness :
    (("foo", ["a", "b"]) ∈ normalize_features [("foo", [" B", "a", "b"])])
    ∧ (["a", "b"] : List String).Nodup
    ∧ normalize_features (normalize_features [("foo", [" B", "a", "b"])])
        = normalize_features [("foo", [" B", "a", "b"])] :=
  ⟨by decide,
    (normalize_features_idempotent.2 [("foo", [" B", "a", "b"])]
      ("foo", ["a", "b"]) (by decide)).1,
    normalize_features_idempotent.1 [("foo", [" B", "a", "b"])]⟩

/-! ## C7 — module feature aggregation -/

/-- First-occurrence deduplication with an accumulator of already-seen
strings; the order-preserving ("stable") reading of deduplication used to
state the original claim. -/
def stableDedupAux (seen : List String) : List String → List String
  | [] => []
  | a :: rest =>
    if seen.contains a then stableDedupAux seen rest
    else a :: stableDedupAux (a :: seen) rest

/-- First-occurrence ("stable order") deduplication. -/
def stableDedup (l : List String) : List String := stableDedupAux [] l

/-- Module entity of the C7 fixture file. -/
def entModC7 : Entity :=
  ⟨"f.py", .Module, "f", "f.py", 1, 10, none, [], none, "", ⟨[], [], []⟩, none⟩

/-- Child entity of the C7 fixture file, with features out of sorted order. -/
def entChildC7 : Entity :=
  ⟨"f.py:c", .Function, "c", "f.py", 1, 5, none, ["b", "a"], none, "",
    ⟨[], [], []⟩, none⟩

/-- C7 fixture graph: one file with a Module entity and one child whose
features appear in the order `["b", "a"]`. -/
def gC7 : RPGraph :=
  { graphWithVersion "2.2.0" with
    entities := [("f.py", entModC7), ("f.py:c", entChildC7)]
    file_index := [("f.py", ["f.py", "f.py:c"])] }

/-- C7 is refuted as stated: the child features arrive in the stable order
`["b", "a"]` (whose stable-order deduplication is `["b", "a"]` itself), but
`aggregate_module_features` writes the sorted union `["a", "b"]` onto the
Module entity. -/
theorem aggregate_module_features_counterexample :
    ((findAssoc (aggregate_module_features gC7).1.entities "f.py").map
      (fun e => e.semantic_features)) = some ["a", "b"]
    ∧ stableDedup ["b", "a"] = ["b", "a"]
    ∧ (["a", "b"] : List String) ≠ ["b", "a"] :=
  ⟨rfl, rfl, by decide⟩

/-- The per-file rule as the (amended) specification states it: for each
file whose id list has a Module entity, take the entities listed for the
file that are not Modules, union their semantic features, and — when that
union is non-empty — record the sorted deduplicated union for the Module. -/
def moduleDataClaim (g : RPGraph) : List (String × List String) :=
  g.file_index.filterMap (fun p =>
    match p.2.find? (isModuleId g) with
    | none => none
    | some module_id =>
      let others := (p.2.filterMap (fun id => findAssoc g.entities id)).filter
        (fun e => e.kind != EntityKind.Module)
      let union := others.flatMap (fun e => e.semantic_features)
      if union.isEmpty then none
      else some (module_id, dedupConsec (sortStrings union)))

/-- `aggregate_module_features` as the (amended) specification states it. -/
def aggregate_module_features_claim (g : RPGraph) : RPGraph × Nat :=
  let md := moduleDataClaim g
  (md.foldl (fun g' p => setEntityFeatures g' p.1 p.2) g, md.length)

theorem others_eq (g : RPGraph) (ids : List String) (mid : String)
    (hfind : ids.find? (isModuleId g) = some mid)
    (hpoint : ∀ id ∈ ids, isModuleId g id = true → id = mid) :
    (ids.filter (fun id => id != mid)).filterMap
        (fun id => findAssoc g.entities id)
      = (ids.filterMap (fun id => findAssoc g.entities id)).filter
          (fun e => e.kind != EntityKind.Module) := by
  have hmid : isModuleId g mid = true := List.find?_some hfind
  clear hfind
  induction ids with
  | nil => rfl
  | cons i rest ih =>
    have hpt : ∀ id ∈ rest, isModuleId g id = true → id = mid :=
      fun id hid => hpoint id (List.mem_cons_of_mem i hid)
    by_cases hm : isModuleId g i = true
    · have hi : i = mid := hpoint i (List.mem_cons_self i rest) hm
      subst hi
      rw [List.filter_cons, if_neg (by simp)]
      unfold isModuleId at hm
      cases he : findAssoc g.entities i with
      | none => rw [he] at hm; exact Bool.noConfusion hm
      | some e =>
        rw [he] at hm
        have hm' : (e.kind == EntityKind.Module) = true := hm
        simp only [List.filterMap_cons, he]
        rw [List.filter_cons, if_neg (by simpa using beq_iff_eq.mp hm')]
        exact ih hpt
    · have hi : i ≠ mid := fun he => hm (he ▸ hmid)
      rw [List.filter_cons, if_pos (by simpa using hi)]
      cases he : findAssoc g.entities i with
      | none =>
        simp only [List.filterMap_cons, he]
        exact ih hpt
      | some e =>
        have hkind : (e.kind != EntityKind.Module) = true := by
          unfold isModuleId at hm
          rw [he] at hm
          have hm' : ¬(e.kind == EntityKind.Module) = true := hm
          simpa using hm'
        simp only [List.filterMap_cons, he]
        rw [List.filter_cons, if_pos hkind, ih hpt]

/-- C7 (amended): on every graph in which each file-index list names at most
one Module entity (any listed id resolving to a Module is the first one
found), `aggregate_module_features` behaves exactly as the amended
specification states: for each file whose non-Module entities carry at least
one semantic feature, the Module entity receives the deduplicated union of
the non-Module entities' features in ascending sorted order, and all other
files are left unchanged; the returned count is the number of updated
files. -/
theorem aggregate_module_features_correct (g : RPGraph)
    (hmod : ∀ p ∈ g.file_index, ∀ id ∈ p.2, isModuleId g id = true →
      p.2.find? (isModuleId g) = some id) :
    aggregate_module_features g = aggregate_module_features_claim g := by
  have hmd : moduleData g = moduleDataClaim g := by
    unfold moduleData moduleDataClaim
    apply List.filterMap_congr
    intro p hp
    cases hfind : p.2.find? (isModuleId g) with
    | none => rfl
    | some mid =>
      have hpoint : ∀ id ∈ p.2, isModuleId g id = true → id = mid := by
        intro id hid hm
        have h1 := hmod p hp id hid hm
        rw [hfind] at h1
        exact (Option.some.inj h1).symm
      simp only []
      rw [others_eq g p.2 mid hfind hpoint]
  unfold aggregate_module_features aggregate_module_features_claim
  rw [hmd]

/-- Witness for (amended) C7 at the fixture graph `gC7`. -/
theorem aggregate_module_features_correct_witness :
    (∀ p ∈ gC7.file_index, ∀ id ∈ p.2, isModuleId gC7 id = true →
      p.2.find? (isModuleId gC7) = some id)
    ∧ aggregate_module_features gC7 = aggregate_module_features_claim gC7 :=
  ⟨by decide, aggregate_module_features_correct gC7 (by decide)⟩

/-! ## C6 — hierarchy assignment: resolution lemmas -/

theorem splitListOn_ne_nil (c : Char) (cs : List Char) : splitListOn c cs ≠ [] := by
  cases cs with
  | nil => simp [splitListOn]
  | cons x xs =>
    unfold splitListOn
    by_cases h : x = c
    · simp [h]
    · simp only [if_neg h]
      cases splitListOn c xs <;> simp

theorem splitS_ne_nil (c : Char) (s : String) : splitS c s ≠ [] := by
  unfold splitS
  intro h
  exact splitListOn_ne_nil c s.data (List.map_eq_nil_iff.mp h)

/-- Resolution of an assignment key as the specification states it: an
existing entity id resolves to itself; otherwise a key matched by exactly
one entity name resolves to that entity; otherwise no resolution. -/
def resolveSpec (g : RPGraph) (key : String) : Option String :=
  if (findAssoc g.entities key).isSome then some key
  else
    match (g.entities.filter (fun p => p.2.name == key)).map Prod.fst with
    | [i] => some i
    | _ => none

/-- Combination of an existing bucket with newly collected ids. -/
def optBucket (b : Option (List String)) (ids : List String) :
    Option (List String) :=
  match b, ids with
  | none, [] => none
  | none, ids => some ids
  | some bs, ids => some (bs ++ ids)

theorem findAssoc_append {α : Type} (m m' : List (String × α)) (k : String) :
    findAssoc (m ++ m') k
      = match findAssoc m k with
        | some v => some v
        | none => findAssoc m' k := by
  induction m with
  | nil => simp [findAssoc]
  | cons p rest ih =>
    obtain ⟨k₀, v₀⟩ := p
    by_cases h : k₀ = k
    · simp [List.cons_append, findAssoc_cons, h]
    · simp only [List.cons_append, findAssoc_cons, if_neg h, ih]

theorem findAssoc_bucketAdd_self (m : List (String × List String))
    (n i : String) :
    findAssoc (bucketAdd m n i) n = some ((findAssoc m n).getD [] ++ [i]) := by
  unfold bucketAdd
  cases h : findAssoc m n with
  | some ids => rw [findAssoc_setAssoc_self]; rfl
  | none =>
    rw [findAssoc_append, h]
    simp [findAssoc_cons, findAssoc]

theorem findAssoc_bucketAdd_other (m : List (String × List String))
    (n i k : String) (h : k ≠ n) :
    findAssoc (bucketAdd m n i) k = findAssoc m k := by
  unfold bucketAdd
  cases hm : findAssoc m n with
  | some ids => exact findAssoc_setAssoc_ne m n k (ids ++ [i]) (fun he => h he.symm)
  | none =>
    rw [findAssoc_append]
    cases h2 : findAssoc m k with
    | some v => rfl
    | none => simp [findAssoc_cons, Ne.symm h, findAssoc]

theorem findAssoc_nameIndex_aux (es : List (String × Entity)) :
    ∀ (m : List (String × List String)) (name : String),
      findAssoc (es.foldl (fun m p => bucketAdd m p.2.name p.1) m) name
        = optBucket (findAssoc m name)
            ((es.filter (fun p => p.2.name == name)).map Prod.fst) := by
  induction es with
  | nil =>
    intro m name
    cases h : findAssoc m name <;> simp [optBucket, h]
  | cons p rest ih =>
    intro m name
    rw [List.foldl_cons, ih (bucketAdd m p.2.name p.1) name]
    by_cases hn : p.2.name = name
    · rw [List.filter_cons, if_pos (by simp [hn]), hn,
        findAssoc_bucketAdd_self]
      cases h : findAssoc m name with
      | none => cases hr : (rest.filter (fun q => q.2.name == name)).map Prod.fst
          <;> simp [optBucket, h, hr]
      | some bs => cases hr : (rest.filter (fun q => q.2.name == name)).map Prod.fst
          <;> simp [optBucket, h, hr]
    · rw [List.filter_cons, if_neg (by simp [hn]),
        findAssoc_bucketAdd_other m p.2.name p.1 name (fun he => hn he.symm)]

theorem findAssoc_nameIndex (es : List (String × Entity)) (name : String) :
    findAssoc (buildNameIndex es) name
      = optBucket none ((es.filter (fun p => p.2.name == name)).map Prod.fst) := by
  unfold buildNameIndex
  rw [findAssoc_nameIndex_aux es [] name]
  rfl

/-- The key resolution computed inside `applyOneAssignment` agrees with the
specification's resolution rule. -/
theorem resolve_eq_spec (g : RPGraph) (key : String) :
    (if (findAssoc g.entities key).isSome then some key
     else
       match findAssoc (buildNameIndex g.entities) key with
       | some [i] => some i
       | _ => none) = resolveSpec g key := by
  unfold resolveSpec
  by_cases h : (findAssoc g.entities key).isSome
  · rw [if_pos h, if_pos h]
  · rw [if_neg h, if_neg h, findAssoc_nameIndex]
    cases hm : (g.entities.filter (fun p => p.2.name == key)).map Prod.fst with
    | nil => rfl
    | cons i rest =>
      cases rest with
      | nil => rfl
      | cons j rest2 => rfl

/-! ## C6 — hierarchy insertion lemmas -/

theorem insertSegs_found (eid : String) :
    ∀ (segs : List String) (node : HierarchyNode),
      ∃ n, findNodeSegs segs (insertSegs eid segs node) = some n
        ∧ eid ∈ n.entities := by
  intro segs
  induction segs with
  | nil =>
    intro node
    refine ⟨_, rfl, ?_⟩
    show eid ∈ (insertSegs eid [] node).entities
    cases node
    simp [insertSegs, HierarchyNode.entities]
  | cons seg rest ih =>
    intro node
    obtain ⟨n, hn, hm⟩ := ih ((findAssoc node.children seg).getD
      (newHierarchyNode (node.id ++ "/" ++ seg) seg))
    refine ⟨n, ?_, hm⟩
    show findNodeSegs (seg :: rest) (insertSegs eid (seg :: rest) node) = some n
    cases node with
    | mk i nm es cs fs =>
      show (match findAssoc
          (setAssoc cs seg (insertSegs eid rest ((findAssoc cs seg).getD
            (newHierarchyNode (i ++ "/" ++ seg) seg)))) seg with
        | none => none
        | some c => findNodeSegs rest c) = some n
      rw [findAssoc_setAssoc_self]
      exact hn

theorem insertSegs_preserve (eid eid' : String) :
    ∀ (segs : List String) (node : HierarchyNode) (n : HierarchyNode),
      findNodeSegs segs node = some n → eid ∈ n.entities →
      ∃ n', findNodeSegs segs (insertSegs eid' segs node) = some n'
        ∧ eid ∈ n'.entities := by
  intro segs
  induction segs with
  | nil =>
    intro node n hf hm
    have hn : node = n := Option.some.inj hf
    subst hn
    refine ⟨_, rfl, ?_⟩
    show eid ∈ (insertSegs eid' [] node).entities
    cases node
    simp only [insertSegs, HierarchyNode.entities] at hm ⊢
    exact List.mem_append_left _ hm
  | cons seg rest ih =>
    intro node n hf hm
    cases node with
    | mk i nm es cs fs =>
      cases hc : findAssoc cs seg with
      | none =>
        rw [show findNodeSegs (seg :: rest) (.mk i nm es cs fs)
          = (match findAssoc cs seg with
            | none => none
            | some c => findNodeSegs rest c) from rfl, hc] at hf
        exact Option.noConfusion hf
      | some c =>
        rw [show findNodeSegs (seg :: rest) (.mk i nm es cs fs)
          = (match findAssoc cs seg with
            | none => none
            | some c => findNodeSegs rest c) from rfl, hc] at hf
        obtain ⟨n', hn', hm'⟩ := ih c n hf hm
        refine ⟨n', ?_, hm'⟩
        show (match findAssoc
            (setAssoc cs seg (insertSegs eid' rest ((findAssoc cs seg).getD
              (newHierarchyNode (i ++ "/" ++ seg) seg)))) seg with
          | none => none
          | some c => findNodeSegs rest c) = some n'
        rw [findAssoc_setAssoc_self, hc]
        exact hn'

theorem insert_into_hierarchy_found (g : RPGraph) (path eid : String) :
    ∃ n, findNodeAt (insert_into_hierarchy g path eid) path = some n
      ∧ eid ∈ n.entities := by
  unfold insert_into_hierarchy findNodeAt
  cases hs : splitS '/' path with
  | nil => exact absurd hs (splitS_ne_nil '/' path)
  | cons seg rest =>
    simp only []
    rw [findAssoc_setAssoc_self]
    exact insertSegs_found eid rest _

theorem insert_into_hierarchy_preserve (g : RPGraph) (path eid eid' : String)
    (h : ∃ n, findNodeAt g path = some n ∧ eid ∈ n.entities) :
    ∃ n', findNodeAt (insert_into_hierarchy g path eid') path = some n'
      ∧ eid ∈ n'.entities := by
  obtain ⟨n, hn, hm⟩ := h
  unfold insert_into_hierarchy
  unfold findNodeAt at hn ⊢
  cases hs : splitS '/' path with
  | nil => exact absurd hs (splitS_ne_nil '/' path)
  | cons seg rest =>
    rw [hs] at hn
    have hn' : (match findAssoc g.hierarchy ("h:" ++ seg) with
      | none => none
      | some c => findNodeSegs rest c) = some n := hn
    simp only []
    rw [findAssoc_setAssoc_self]
    cases hc : findAssoc g.hierarchy ("h:" ++ seg) with
    | none =>
      rw [hc] at hn'
      exact Option.noConfusion hn'
    | some topn =>
      rw [hc] at hn'
      exact insertSegs_preserve eid eid' rest topn n hn' hm

theorem insert_into_hierarchy_entities (g : RPGraph) (path eid : String) :
    (insert_into_hierarchy g path eid).entities = g.entities := by
  unfold insert_into_hierarchy
  cases splitS '/' path <;> rfl

/-! ## C6 — Module sibling propagation lemmas -/

/-- One sibling step of the Module branch of `apply_hierarchy`: set the
sibling's `hierarchy_path`, then insert it into the hierarchy node at
`path`. -/
def moduleStep (path : String) (g : RPGraph) (sid : String) : RPGraph :=
  insert_into_hierarchy (setEntityPath g sid path) path sid

theorem moduleStep_entities (path : String) (g : RPGraph) (sid k : String) :
    findAssoc (moduleStep path g sid).entities k
      = if sid = k
        then (findAssoc g.entities k).map
          (fun e => { e with hierarchy_path := path })
        else findAssoc g.entities k := by
  unfold moduleStep
  rw [insert_into_hierarchy_entities]
  exact findAssoc_updAssoc g.entities sid k _

theorem moduleFold_entities (path : String) (sibs : List String) :
    ∀ (g : RPGraph) (k : String),
      findAssoc ((sibs.foldl (moduleStep path) g).entities) k
        = if k ∈ sibs
          then (findAssoc g.entities k).map
            (fun e => { e with hierarchy_path := path })
          else findAssoc g.entities k := by
  induction sibs with
  | nil =>
    intro g k
    simp
  | cons s rest ih =>
    intro g k
    rw [List.foldl_cons, ih (moduleStep path g s) k, moduleStep_entities]
    have hff : ∀ o : Option Entity,
        (o.map (fun e => { e with hierarchy_path := path })).map
            (fun e => { e with hierarchy_path := path })
          = o.map (fun e => { e with hierarchy_path := path }) := by
      intro o
      cases o <;> rfl
    by_cases hr : k ∈ rest
    · by_cases hsk : s = k
      · simp [hr, hsk, hff]
      · simp [hr, hsk]
    · by_cases hsk : s = k
      · subst hsk
        simp [hr]
      · simp [hr, hsk, List.mem_cons, (show k ≠ s from fun h => hsk h.symm)]

theorem moduleFold_preserve (path : String) (sibs : List String) :
    ∀ (g : RPGraph) (x : String),
      (∃ n, findNodeAt g path = some n ∧ x ∈ n.entities) →
      ∃ n, findNodeAt (sibs.foldl (moduleStep path) g) path = some n
        ∧ x ∈ n.entities := by
  induction sibs with
  | nil => intro g x h; simpa using h
  | cons s rest ih =>
    intro g x h
    rw [List.foldl_cons]
    refine ih (moduleStep path g s) x ?_
    unfold moduleStep
    exact insert_into_hierarchy_preserve (setEntityPath g s path) path x s h

theorem moduleFold_hierarchy (path : String) (sibs : List String) :
    ∀ (g : RPGraph) (sid : String), sid ∈ sibs →
      ∃ n, findNodeAt (sibs.foldl (moduleStep path) g) path = some n
        ∧ sid ∈ n.entities := by
  induction sibs with
  | nil => intro g sid h; exact absurd h (List.not_mem_nil sid)
  | cons s rest ih =>
    intro g sid hsid
    rw [List.foldl_cons]
    rcases List.mem_cons.mp hsid with rfl | hr
    · refine moduleFold_preserve path rest (moduleStep path g sid) sid ?_
      unfold moduleStep
      exact insert_into_hierarchy_found (setEntityPath g sid path) path sid
    · exact ih (moduleStep path g s) sid hr

/-- `apply_hierarchy` on a single assignment, with the resolution written
through `resolveSpec`. -/
theorem apply_hierarchy_single (g : RPGraph) (key path : String) :
    apply_hierarchy g [(key, path)]
      = match resolveSpec g key with
        | none => g
        | some id =>
          if (match findAssoc g.entities id with
              | some e => e.kind == EntityKind.Module
              | none => false) then
            match (findAssoc g.entities id).map (fun e => e.file) with
            | some file =>
              ((findAssoc g.file_index file).getD []).foldl (moduleStep path) g
            | none => g
          else moduleStep path g id := by
  show applyOneAssignment (buildNameIndex g.entities) g key path = _
  unfold applyOneAssignment
  rw [resolve_eq_spec]
  rfl

/-- C6: per-assignment behavior of `apply_hierarchy`.  The key resolves to
an existing entity id directly, else to the unique entity of that name,
else the assignment is skipped (the graph is unchanged).  A Module
resolution propagates the path to every entity id listed in the file index
for the Module's file — each such entity gets `hierarchy_path = path` and is
inserted into the hierarchy node identified by `path`; a non-Module
resolution assigns only that single entity, leaving every other entity
untouched. -/
theorem apply_hierarchy_correct (g : RPGraph) (key path : String) :
    (resolveSpec g key = none → apply_hierarchy g [(key, path)] = g)
    ∧ (∀ id e, resolveSpec g key = some id → findAssoc g.entities id = some e →
        e.kind = .Module →
        ∀ sid ∈ (findAssoc g.file_index e.file).getD [],
          findAssoc (apply_hierarchy g [(key, path)]).entities sid
            = (findAssoc g.entities sid).map
                (fun e' => { e' with hierarchy_path := path })
          ∧ ∃ n, findNodeAt (apply_hierarchy g [(key, path)]) path = some n
              ∧ sid ∈ n.entities)
    ∧ (∀ id e, resolveSpec g key = some id → findAssoc g.entities id = some e →
        e.kind ≠ .Module →
        findAssoc (apply_hierarchy g [(key, path)]).entities id
            = some { e with hierarchy_path := path }
        ∧ (∀ k, k ≠ id → findAssoc (apply_hierarchy g [(key, path)]).entities k
            = findAssoc g.entities k)
        ∧ ∃ n, findNodeAt (apply_hierarchy g [(key, path)]) path = some n
            ∧ id ∈ n.entities) := by
  refine ⟨?_, ?_, ?_⟩
  · intro hres
    rw [apply_hierarchy_single, hres]
  · intro id e hres hfind hkind sid hsid
    have hmod : (e.kind == EntityKind.Module) = true := by
      rw [hkind]
      rfl
    rw [apply_hierarchy_single, hres]
    simp only [hfind, Option.map_some, hmod, if_true]
    have hred : (match Option.map (fun e => e.file) (some e) with
        | some file =>
          List.foldl (moduleStep path) g ((findAssoc g.file_index file).getD [])
        | none => g)
        = List.foldl (moduleStep path) g
            ((findAssoc g.file_index e.file).getD []) := rfl
    rw [hred]
    constructor
    · rw [moduleFold_entities path _ g sid]
      rw [if_pos hsid]
    · exact moduleFold_hierarchy path _ g sid hsid
  · intro id e hres hfind hkind
    have hmod : (e.kind == EntityKind.Module) = false :=
      beq_eq_false_iff_ne.mpr hkind
    rw [apply_hierarchy_single, hres]
    simp only [hfind, Option.map_some, hmod, Bool.false_eq_true, if_false]
    refine ⟨?_, ?_, ?_⟩
    · rw [moduleStep_entities, if_pos rfl, hfind]
      rfl
    · intro k hk
      rw [moduleStep_entities, if_neg (fun he => hk he.symm)]
    · exact insert_into_hierarchy_found (setEntityPath g id path) path id

/-- Module entity of the C6 fixture file. -/
def entModC6 : Entity :=
  ⟨"src/auth/login.py", .Module, "login", "src/auth/login.py", 1, 20, none,
    [], none, "", ⟨[], [], []⟩, none⟩

/-- Sibling function entity of the C6 fixture file. -/
def entValC6 : Entity :=
  ⟨"src/auth/login.py:validate", .Function, "validate", "src/auth/login.py",
    2, 10, none, [], none, "", ⟨[], [], []⟩, none⟩

/-- C6 fixture graph: a Module and a sibling function in one file. -/
def gC6 : RPGraph :=
  { graphWithVersion "2.2.0" with
    entities := [("src/auth/login.py", entModC6),
      ("src/auth/login.py:validate", entValC6)]
    file_index := [("src/auth/login.py",
      ["src/auth/login.py", "src/auth/login.py:validate"])] }

/-- Witness for C6: assigning `"Services/Auth"` to the Module of
`src/auth/login.py` propagates the path to the sibling `validate` entity
and inserts it into the `Services/Auth` hierarchy node. -/
theorem apply_hierarchy_correct_witness :
    (resolveSpec gC6 "src/auth/login.py" = some "src/auth/login.py"
      ∧ findAssoc gC6.entities "src/auth/login.py" = some entModC6
      ∧ entModC6.kind = .Module
      ∧ "src/auth/login.py:validate"
          ∈ (findAssoc gC6.file_index entModC6.file).getD [])
    ∧ (findAssoc (apply_hierarchy gC6
          [("src/auth/login.py", "Services/Auth")]).entities
          "src/auth/login.py:validate"
        = (findAssoc gC6.entities "src/auth/login.py:validate").map
            (fun e' => { e' with hierarchy_path := "Services/Auth" })
        ∧ ∃ n, findNodeAt (apply_hierarchy gC6
            [("src/auth/login.py", "Services/Auth")]) "Services/Auth" = some n
            ∧ "src/auth/login.py:validate" ∈ n.entities) :=
  ⟨⟨rfl, rfl, rfl, by decide⟩,
    (apply_hierarchy_correct gC6 "src/auth/login.py" "Services/Auth").2.1
      "src/auth/login.py" entModC6 rfl rfl rfl
      "src/auth/login.py:validate" (by decide)⟩

/-! ## C1 — backslash migration -/

theorem normId_no_backslash (s : String) : '\\' ∉ (normId s).data := by
  unfold normId
  intro h
  obtain ⟨c, _, hc⟩ := List.mem_map.mp h
  by_cases he : c = '\\'
  · rw [if_pos he] at hc
    exact absurd hc (by decide)
  · rw [if_neg he] at hc
    exact he hc

theorem normId_ne_self (s : String) (h : '\\' ∈ s.data) : normId s ≠ s := by
  intro he
  exact normId_no_backslash s (by rw [he]; exact h)

/-- The id rewriting map as the specification states it: a string that is a
key of the entities map is normalized; every other string is untouched. -/
def remapSpec (g : RPGraph) (id : String) : String :=
  if (findAssoc g.entities id).isSome then normId id else id

/-- The remap table produced by the rebuild pass of
`migrate_normalize_entity_ids`: one entry per key changed by
normalization. -/
def remapOf (es : List (String × Entity)) : List (String × String) :=
  (es.filter (fun p => p.1 != normId p.1)).map (fun p => (p.1, normId p.1))

theorem remapOf_keys_sub (es : List (String × Entity)) (k : String)
    (hk : k ∈ (remapOf es).map Prod.fst) : k ∈ es.map Prod.fst := by
  unfold remapOf at hk
  rw [List.map_map] at hk
  obtain ⟨p, hp, he⟩ := List.mem_map.mp hk
  exact he ▸ List.mem_map_of_mem Prod.fst ((List.filter_sublist es).subset hp)

theorem remapOf_cons (p : String × Entity) (rest : List (String × Entity)) :
    remapOf (p :: rest)
      = (if p.1 ≠ normId p.1 then [(p.1, normId p.1)] else []) ++ remapOf rest := by
  unfold remapOf
  rw [List.filter_cons]
  by_cases hch : p.1 ≠ normId p.1
  · rw [if_pos (by simpa using hch), if_pos hch]
    rfl
  · rw [if_neg (by simpa using hch), if_neg hch]
    rfl

theorem rebuild_fold_spec (es : List (String × Entity)) :
    ∀ (accE : List (String × Entity)) (accR : List (String × String)),
      (es.map Prod.fst).Nodup →
      (∀ p ∈ es, ∀ q ∈ es, normId p.1 = normId q.1 → p.1 = q.1) →
      (∀ p ∈ es, normId p.1 ∉ accE.map Prod.fst) →
      (∀ p ∈ es, p.1 ∉ accR.map Prod.fst) →
      es.foldl rebuildStep (accE, accR)
        = (accE ++ es.map (fun p => (normId p.1, { p.2 with id := normId p.1 })),
           accR ++ remapOf es) := by
  induction es with
  | nil =>
    intro accE accR _ _ _ _
    simp [remapOf]
  | cons p rest ih =>
    intro accE accR hnd hinj hfE hfR
    rw [List.map_cons, List.nodup_cons] at hnd
    rw [List.foldl_cons]
    have hstep : rebuildStep (accE, accR) p
        = (accE ++ [(normId p.1, { p.2 with id := normId p.1 })],
           accR ++ (if p.1 ≠ normId p.1 then [(p.1, normId p.1)] else [])) := by
      show (setAssoc accE (normId p.1) { p.2 with id := normId p.1 },
          if p.1 ≠ normId p.1 then setAssoc accR p.1 (normId p.1) else accR) = _
      rw [setAssoc_of_not_mem accE (normId p.1) _
        (hfE p (List.mem_cons_self p rest))]
      by_cases hch : p.1 ≠ normId p.1
      · rw [if_pos hch, if_pos hch,
          setAssoc_of_not_mem accR p.1 _ (hfR p (List.mem_cons_self p rest))]
      · rw [if_neg hch, if_neg hch]
        simp
    have hinjR : ∀ a ∈ rest, ∀ b ∈ rest, normId a.1 = normId b.1 → a.1 = b.1 :=
      fun a ha b hb => hinj a (List.mem_cons_of_mem p ha)
        b (List.mem_cons_of_mem p hb)
    have hfER : ∀ q ∈ rest, normId q.1
        ∉ (accE ++ [(normId p.1, { p.2 with id := normId p.1 })]).map Prod.fst := by
      intro q hq
      rw [List.map_append]
      simp only [List.mem_append, List.map_cons, List.map_nil,
        List.mem_singleton]
      push_neg
      refine ⟨fun hc => hfE q (List.mem_cons_of_mem p hq) hc, ?_⟩
      intro he
      exact hnd.1 (hinj q (List.mem_cons_of_mem p hq) p
        (List.mem_cons_self p rest) he ▸ List.mem_map_of_mem Prod.fst hq)
    have hfRR : ∀ q ∈ rest, q.1
        ∉ (accR ++ (if p.1 ≠ normId p.1
            then [(p.1, normId p.1)] else [])).map Prod.fst := by
      intro q hq
      rw [List.map_append]
      simp only [List.mem_append]
      push_neg
      refine ⟨fun hc => hfR q (List.mem_cons_of_mem p hq) hc, ?_⟩
      by_cases hch : p.1 ≠ normId p.1
      · rw [if_pos hch]
        simp only [List.map_cons, List.map_nil, List.mem_singleton]
        intro he
        exact hnd.1 (he ▸ List.mem_map_of_mem Prod.fst hq)
      · rw [if_neg hch]
        simp
    rw [hstep, ih _ _ hnd.2 hinjR hfER hfRR, remapOf_cons]
    simp [List.append_assoc]

theorem remapApply_spec (es : List (String × Entity)) (id : String) :
    (es.map Prod.fst).Nodup →
    remapApply (remapOf es) id
      = if (findAssoc es id).isSome then normId id else id := by
  induction es with
  | nil =>
    intro _
    simp [remapApply, remapOf, findAssoc]
  | cons p rest ih =>
    intro hnd
    rw [List.map_cons, List.nodup_cons] at hnd
    rw [remapOf_cons]
    by_cases hid : p.1 = id
    · subst hid
      have hfind : (findAssoc (p :: rest) p.1).isSome = true := by
        rw [show (p : String × Entity) = (p.1, p.2) from rfl, findAssoc_cons,
          if_pos rfl]
        rfl
      rw [if_pos hfind]
      by_cases hch : p.1 ≠ normId p.1
      · rw [if_pos hch]
        unfold remapApply
        rw [show ([(p.1, normId p.1)] ++ remapOf rest : List (String × String))
          = (p.1, normId p.1) :: remapOf rest from rfl, findAssoc_cons,
          if_pos rfl]
        rfl
      · rw [if_neg hch]
        push_neg at hch
        have hnotin : findAssoc (remapOf rest) p.1 = none := by
          apply findAssoc_eq_none_of_not_mem
          intro hmem
          exact hnd.1 (remapOf_keys_sub rest p.1 hmem)
        show remapApply ([] ++ remapOf rest) p.1 = normId p.1
        unfold remapApply
        rw [List.nil_append, hnotin]
        exact hch
    · have hfind : findAssoc (p :: rest) id = findAssoc rest id := by
        rw [show (p : String × Entity) = (p.1, p.2) from rfl, findAssoc_cons,
          if_neg hid]
      rw [hfind]
      by_cases hch : p.1 ≠ normId p.1
      · rw [if_pos hch]
        have hstep : remapApply ((p.1, normId p.1) :: remapOf rest) id
            = remapApply (remapOf rest) id := by
          unfold remapApply
          rw [findAssoc_cons, if_neg hid]
        rw [show ([(p.1, normId p.1)] ++ remapOf rest : List (String × String))
          = (p.1, normId p.1) :: remapOf rest from rfl, hstep]
        exact ih hnd.2
      · rw [if_neg hch, List.nil_append]
        exact ih hnd.2

theorem migrate_normalize_spec (g : RPGraph)
    (hnd : (g.entities.map Prod.fst).Nodup)
    (hinj : ∀ p ∈ g.entities, ∀ q ∈ g.entities,
      normId p.1 = normId q.1 → p.1 = q.1)
    (hbs : ∃ p ∈ g.entities, '\\' ∈ p.1.data) :
    migrate_normalize_entity_ids g = { g with
      entities := g.entities.map
        (fun p => (normId p.1, { p.2 with id := normId p.1 }))
      file_index := g.file_index.map (fun q => (q.1, q.2.map (remapSpec g)))
      edges := g.edges.map (fun ed => { ed with
        source := remapSpec g ed.source
        target := remapSpec g ed.target })
      hierarchy := g.hierarchy.map
        (fun q => (q.1, mapNodeIds (remapSpec g) q.2)) } := by
  have hr := rebuild_fold_spec g.entities [] [] hnd hinj
    (by simp) (by simp)
  have hfun : remapApply (remapOf g.entities) = remapSpec g :=
    funext (fun id => by rw [remapApply_spec g.entities id hnd]; rfl)
  have hne : (remapOf g.entities).isEmpty = false := by
    obtain ⟨p, hp, hb⟩ := hbs
    have hch : (p.1 != normId p.1) = true := by
      simpa using fun he : p.1 = normId p.1 => normId_ne_self p.1 hb he.symm
    have hm : p ∈ g.entities.filter (fun p => p.1 != normId p.1) :=
      List.mem_filter.mpr ⟨hp, hch⟩
    unfold remapOf
    cases hf : g.entities.filter (fun p => p.1 != normId p.1) with
    | nil => rw [hf] at hm; exact absurd hm (List.not_mem_nil p)
    | cons a l => rfl
  simp only [migrate_normalize_entity_ids, hr, List.nil_append]
  rw [hne]
  simp only [Bool.false_eq_true, if_false, hfun]

/-- C1 (amended): for every graph whose version parses strictly below 2.2.0
and whose entities map has at least one key containing a backslash (keys
duplicate free, normalization collision free), `migrate` replaces every
backslash with a forward slash in entities-map keys and id fields, rewrites
every key of the entities map in file-index value lists, edge endpoints and
(recursively) hierarchy entity lists through the normalization map, sets the
version to `CURRENT_VERSION`, and afterwards no entities-map key and no
entity id field contains a backslash.  (Fields other than ids — e.g. entity
`file` paths — are not rewritten, refuting the unrestricted no-backslash
claim.) -/
theorem migrate_normalizes_backslash_ids (g : RPGraph) (v : SemVer)
    (hp : parseSemVer g.version = some v)
    (hlt : semverLt v ⟨2, 2, 0, [], []⟩ = true)
    (hnd : (g.entities.map Prod.fst).Nodup)
    (hinj : ∀ p ∈ g.entities, ∀ q ∈ g.entities,
      normId p.1 = normId q.1 → p.1 = q.1)
    (hbs : ∃ p ∈ g.entities, '\\' ∈ p.1.data) :
    migrate g = .ok { g with
      version := CURRENT_VERSION
      entities := g.entities.map
        (fun p => (normId p.1, { p.2 with id := normId p.1 }))
      file_index := g.file_index.map (fun q => (q.1, q.2.map (remapSpec g)))
      edges := g.edges.map (fun ed => { ed with
        source := remapSpec g ed.source
        target := remapSpec g ed.target })
      hierarchy := g.hierarchy.map
        (fun q => (q.1, mapNodeIds (remapSpec g) q.2)) }
    ∧ ∀ p ∈ g.entities, '\\' ∉ (normId p.1).data := by
  constructor
  · unfold migrate
    rw [parseSemVer_current, hp]
    simp only [hlt, if_true]
    rw [migrate_normalize_spec g hnd hinj hbs]
  · exact fun p _ => normId_no_backslash p.1

/-- Entity whose key and `file` both contain backslashes. -/
def entBack : Entity :=
  ⟨"a\\b", .Function, "f", "src\\x.py", 1, 2, none, [], none, "",
    ⟨[], [], []⟩, none⟩

/-- C1 counterexample graph: version below 2.2.0, a backslash entity key,
and a backslash inside the entity's `file` field. -/
def gBack : RPGraph :=
  { graphWithVersion "2.1.0" with
    entities := [("a\\b", entBack)]
    file_index := [("src\\x.py", ["a\\b"])] }

/-- C1 is refuted as stated: `gBack` satisfies the claim's hypotheses
(version parses below 2.2.0, an entities-map key contains a backslash), yet
after `migrate` the graph still contains a backslash — the migration only
rewrites entity ids, leaving e.g. the entity `file` field untouched. -/
theorem migrate_backslash_counterexample :
    parseSemVer gBack.version = some ⟨2, 1, 0, [], []⟩
    ∧ semverLt ⟨2, 1, 0, [], []⟩ ⟨2, 2, 0, [], []⟩ = true
    ∧ ('\\' ∈ "a\\b".data ∧ (findAssoc gBack.entities "a\\b").isSome = true)
    ∧ (migrate gBack).toOption.map
        (fun g' => g'.entities.any (fun p => p.2.file.data.contains '\\'))
      = some true :=
  ⟨rfl, rfl, ⟨by decide, rfl⟩, rfl⟩

/-- Entity of the C1 witness graph (the `schema.rs` backslash test). -/
def entW1 : Entity :=
  ⟨"src\\auth\\login.py:validate", .Function, "validate", "src/auth/login.py",
    1, 10, none, ["validates user credentials"], some "llm", "",
    ⟨[], [], []⟩, none⟩

/-- Hierarchy node of the C1 witness graph. -/
def hnW1 : HierarchyNode :=
  .mk "h:Auth" "Auth" ["src\\auth\\login.py:validate"] [] []

/-- C1 witness graph: the backslash-migration scenario of the tests. -/
def gW1 : RPGraph :=
  { graphWithVersion "2.1.0" with
    entities := [("src\\auth\\login.py:validate", entW1)]
    file_index := [("src/auth/login.py", ["src\\auth\\login.py:validate"])]
    edges := [⟨"src\\auth\\login.py:validate", "other:target", .Invokes⟩]
    hierarchy := [("h:Auth", hnW1)] }

/-- Witness for (amended) C1 at the test scenario graph. -/
theorem migrate_normalizes_backslash_ids_witness :
    (parseSemVer gW1.version = some ⟨2, 1, 0, [], []⟩
      ∧ semverLt ⟨2, 1, 0, [], []⟩ ⟨2, 2, 0, [], []⟩ = true
      ∧ (gW1.entities.map Prod.fst).Nodup
      ∧ (∀ p ∈ gW1.entities, ∀ q ∈ gW1.entities,
          normId p.1 = normId q.1 → p.1 = q.1)
      ∧ ∃ p ∈ gW1.entities, '\\' ∈ p.1.data)
    ∧ (migrate gW1 = .ok { gW1 with
        version := CURRENT_VERSION
        entities := gW1.entities.map
          (fun p => (normId p.1, { p.2 with id := normId p.1 }))
        file_index := gW1.file_index.map
          (fun q => (q.1, q.2.map (remapSpec gW1)))
        edges := gW1.edges.map (fun ed => { ed with
          source := remapSpec gW1 ed.source
          target := remapSpec gW1 ed.target })
        hierarchy := gW1.hierarchy.map
          (fun q => (q.1, mapNodeIds (remapSpec gW1) q.2)) }
      ∧ ∀ p ∈ gW1.entities, '\\' ∉ (normId p.1).data) :=
  ⟨⟨rfl, rfl, by decide, by decide, by decide⟩,
    migrate_normalizes_backslash_ids gW1 ⟨2, 1, 0, [], []⟩ rfl rfl
      (by decide) (by decide) (by decide)⟩
